import Mathlib

/-!
Verification of the in-process module kernel (EventBus, ModuleRegistry,
ModuleManager, CoreKernel) of the Mobile-Dev-Toolkit repository.

The TypeScript sources are shallowly embedded: classes become explicit
state records, `Map`/`Set` become insertion-ordered association/member
lists, async lifecycle hooks become entries of an execution trace (trace
order models await order), and thrown errors become `Except` values.
Definitions follow `src/core/modules/types.ts`, `registry.ts`,
`manager.ts`, `events/eventBus.ts`, the event-name module and
`kernel.ts`.  Operations present only as callers in the source
(`deactivate`, `deactivateAll`, `ModuleManager.getSnapshot`) are
modelled from the specification and marked as such.
-/

namespace MDT

/-! ## Character classes of the id / event-name grammars -/

/-- Matches the regex class `[a-z]`. -/
def isLowerAZ (c : Char) : Bool := 'a' ≤ c && c ≤ 'z'

/-- Matches the regex class `[0-9]`. -/
def isDigit09 (c : Char) : Bool := '0' ≤ c && c ≤ '9'

/-- Matches the regex class `[a-z0-9-]`, the segment characters of both
`MODULE_ID_PATTERN` and `EVENT_NAME_PATTERN`. -/
def segChar (c : Char) : Bool := isLowerAZ c || isDigit09 c || c == '-'

theorem segChar_dot : segChar '.' = false := by decide

theorem segChar_colon : segChar ':' = false := by decide

theorem isLowerAZ_dot : isLowerAZ '.' = false := by decide

theorem segChar_of_isLowerAZ {c : Char} (h : isLowerAZ c = true) :
    segChar c = true := by
  simp [segChar, h]

/-! ## Dot-segmentation helper

`splitDotsAux l = (s, ss)` splits `l` at the `'.'` characters: `s` is the
prefix before the first dot and `ss` the later segments in order. -/

def splitDotsAux : List Char → List Char × List (List Char)
  | [] => ([], [])
  | c :: rest =>
    let (s, ss) := splitDotsAux rest
    if c = '.' then ([], s :: ss) else (c :: s, ss)

/-- All dot-separated segments of a character list, in order (always
nonempty as a list: a string with no dot is one segment). -/
def splitDots (l : List Char) : List (List Char) :=
  (splitDotsAux l).1 :: (splitDotsAux l).2

/-- A nonempty all-segment-character segment, the regex piece `[a-z0-9-]+`. -/
def segOk (s : List Char) : Bool := !s.isEmpty && s.all segChar

/-! ## The module-id matcher

`MODULE_ID_PATTERN = /^[a-z][a-z0-9-]*(\.[a-z0-9-]+)+$/` from
`src/core/modules/types.ts`, run as the deterministic automaton the
regex denotes (`'.'` is not a segment character, so matching never
backtracks).  State `first` is inside the leading segment with no dot
seen yet, `afterDot` is immediately after a dot, `inSeg` is inside a
later segment with at least one character read. -/

inductive IdSt : Type
  | first
  | afterDot
  | inSeg
deriving DecidableEq

def idRun : IdSt → List Char → Bool
  | .first, [] => false
  | .first, c :: rest =>
    if c = '.' then idRun .afterDot rest else segChar c && idRun .first rest
  | .afterDot, [] => false
  | .afterDot, c :: rest => segChar c && idRun .inSeg rest
  | .inSeg, [] => true
  | .inSeg, c :: rest =>
    if c = '.' then idRun .afterDot rest else segChar c && idRun .inSeg rest

/-- `isValidModuleId` from `src/core/modules/types.ts`: test of
`MODULE_ID_PATTERN` against the whole string. -/
def isValidModuleId (s : String) : Bool :=
  match s.data with
  | [] => false
  | c :: rest => isLowerAZ c && idRun .first rest

/-! Characterisation of the three automaton states by the dot
segmentation of the remaining input. -/

theorem idRun_splitDots (l : List Char) :
    (idRun .first l =
      ((splitDotsAux l).1.all segChar && !(splitDotsAux l).2.isEmpty &&
        (splitDotsAux l).2.all segOk)) ∧
    (idRun .afterDot l =
      (segOk (splitDotsAux l).1 && (splitDotsAux l).2.all segOk)) ∧
    (idRun .inSeg l =
      ((splitDotsAux l).1.all segChar && (splitDotsAux l).2.all segOk)) := by
  induction l with
  | nil => simp [idRun, splitDotsAux, segOk]
  | cons c rest ih =>
    obtain ⟨ih1, ih2, ih3⟩ := ih
    by_cases hc : c = '.'
    · subst hc
      simp [idRun, splitDotsAux, segOk, segChar_dot, ih2]
    · simp only [idRun, splitDotsAux, if_neg hc]
      refine ⟨?_, ?_, ?_⟩
      · rw [ih1]
        cases hsc : segChar c <;>
          simp [segOk, hsc, List.all_cons, Bool.and_assoc]
      · rw [ih3]
        cases hsc : segChar c <;>
          simp [segOk, hsc, List.all_cons, Bool.and_assoc]
      · rw [ih3]
        cases hsc : segChar c <;>
          simp [segOk, hsc, List.all_cons, Bool.and_assoc]


theorem segOk_iff (s : List Char) :
    segOk s = true ↔ s ≠ [] ∧ ∀ c ∈ s, segChar c = true := by
  cases s <;> simp [segOk, List.all_eq_true]

theorem bool_not_isEmpty_iff (l : List (List Char)) :
    (!l.isEmpty) = true ↔ l ≠ [] := by
  cases l <;> simp

/-- The specification-side reading of the module-id grammar: at least two
dot-separated segments, every segment nonempty and built from lowercase
letters, digits and hyphens, and the first segment starting with a
lowercase letter. -/
def ModuleIdSpec (s : String) : Prop :=
  2 ≤ (splitDots s.data).length ∧
  (∀ seg ∈ splitDots s.data, seg ≠ [] ∧ ∀ c ∈ seg, segChar c = true) ∧
  (∃ c cs, (splitDots s.data).head? = some (c :: cs) ∧ isLowerAZ c = true)

theorem isValidModuleId_iff (s : String) :
    isValidModuleId s = true ↔ ModuleIdSpec s := by
  cases hd : s.data with
  | nil =>
    have hv : isValidModuleId s = false := by
      unfold isValidModuleId
      rw [hd]
    rw [hv]
    unfold ModuleIdSpec
    rw [hd]
    simp [splitDots, splitDotsAux]
  | cons c rest =>
    have hv : isValidModuleId s = (isLowerAZ c && idRun .first rest) := by
      unfold isValidModuleId
      rw [hd]
    rw [hv]
    unfold ModuleIdSpec
    rw [hd]
    by_cases hc : c = '.'
    · subst hc
      simp only [isLowerAZ_dot, Bool.false_and, Bool.false_eq_true, false_iff]
      rintro ⟨-, -, c', cs, hhead, -⟩
      simp [splitDots, splitDotsAux] at hhead
    · have hsplit : splitDots (c :: rest) =
          (c :: (splitDotsAux rest).1) :: (splitDotsAux rest).2 := by
        simp [splitDots, splitDotsAux, hc]
      rw [hsplit, (idRun_splitDots rest).1]
      constructor
      · intro h
        simp only [Bool.and_eq_true] at h
        obtain ⟨hlow, ⟨hall, hne⟩, hok⟩ := h
        have hssne : (splitDotsAux rest).2 ≠ [] :=
          (bool_not_isEmpty_iff _).mp hne
        refine ⟨?_, ?_, c, (splitDotsAux rest).1, rfl, hlow⟩
        · have := List.length_pos.mpr hssne
          simp only [List.length_cons]
          omega
        · intro seg hseg
          rcases List.mem_cons.mp hseg with hfirst | hlater
          · subst hfirst
            refine ⟨by simp, ?_⟩
            intro x hx
            rcases List.mem_cons.mp hx with rfl | hx'
            · exact segChar_of_isLowerAZ hlow
            · exact List.all_eq_true.mp hall x hx'
          · exact (segOk_iff seg).mp (List.all_eq_true.mp hok seg hlater)
      · rintro ⟨hlen, hsegs, c', cs, hhead, hlow⟩
        simp only [List.head?_cons, Option.some.injEq] at hhead
        injection hhead with h1 h2
        subst h1
        subst h2
        simp only [Bool.and_eq_true]
        refine ⟨hlow, ⟨?_, ?_⟩, ?_⟩
        · exact List.all_eq_true.mpr fun x hx =>
            (hsegs _ (List.mem_cons_self _ _)).2 x (List.mem_cons_of_mem _ hx)
        · refine (bool_not_isEmpty_iff _).mpr ?_
          intro hnil
          rw [hnil] at hlen
          simp at hlen
        · exact List.all_eq_true.mpr fun seg hseg =>
            (segOk_iff seg).mpr (hsegs seg (List.mem_cons_of_mem _ hseg))

/-- Claim C8: `isValidModuleId` accepts exactly the strings of lowercase
letters, digits and hyphens arranged in at least two dot-separated
segments, the first starting with a lowercase letter; in particular
`"device.android.install"` is accepted while `"Device.Android"`
(uppercase) and `"device"` (single segment) are rejected. -/
theorem isValidModuleId_spec :
    (∀ s : String, isValidModuleId s = true ↔ ModuleIdSpec s) ∧
    isValidModuleId "device.android.install" = true ∧
    isValidModuleId "Device.Android" = false ∧
    isValidModuleId "device" = false :=
  ⟨isValidModuleId_iff, by decide, by decide, by decide⟩

/-! ## The event-name matcher

`EVENT_NAME_PATTERN =
/^[a-z][a-z0-9-]*(\.[a-z0-9-]+)*:[a-z][a-z0-9-]*(\.[a-z0-9-]+)*$/` from
the core events module: a `domain:action` pair whose two halves are
dot-segmented lowercase names.  The part of either half after its
leading lowercase letter, `[a-z0-9-]*(\.[a-z0-9-]+)*`, is exactly the
language of state `inSeg` of `idRun`, so the action half reuses it.
State `dTail` is inside a domain segment (the colon may come next),
`dAfterDot` is right after a dot of the domain half. -/

def nameAfterColon : List Char → Bool
  | [] => false
  | c :: rest => isLowerAZ c && idRun .inSeg rest

inductive EvSt : Type
  | dTail
  | dAfterDot
deriving DecidableEq

def evRun : EvSt → List Char → Bool
  | .dTail, [] => false
  | .dTail, c :: rest =>
    if c = ':' then nameAfterColon rest
    else if c = '.' then evRun .dAfterDot rest
    else segChar c && evRun .dTail rest
  | .dAfterDot, [] => false
  | .dAfterDot, c :: rest => segChar c && evRun .dTail rest

/-- `isValidEventName` from the core events module: test of
`EVENT_NAME_PATTERN` against the whole string. -/
def isValidEventName (s : String) : Bool :=
  match s.data with
  | [] => false
  | c :: rest => isLowerAZ c && evRun .dTail rest

inductive EventNameError : Type
  | invalidEventName
deriving DecidableEq

/-- `assertEventName` from the core events module: throws on any string
`isValidEventName` rejects. -/
def assertEventName (s : String) : Except EventNameError Unit :=
  if isValidEventName s then Except.ok () else Except.error .invalidEventName

/-- Splits at the first `':'`: `some (d, a)` with `l = d ++ ':' :: a`
and no colon in `d`, or `none` when `l` has no colon. -/
def splitColonAux : List Char → Option (List Char × List Char)
  | [] => none
  | c :: rest =>
    if c = ':' then some ([], rest)
    else match splitColonAux rest with
      | none => none
      | some (d, a) => some (c :: d, a)

theorem splitColonAux_eq_some (l : List Char) (d a : List Char) :
    splitColonAux l = some (d, a) ↔ (l = d ++ ':' :: a ∧ ':' ∉ d) := by
  induction l generalizing d a with
  | nil => simp [splitColonAux]
  | cons c rest ih =>
    by_cases hcol : c = ':'
    · subst hcol
      cases d with
      | nil => simp [splitColonAux]
      | cons c' d' =>
        simp only [splitColonAux, if_pos rfl]
        constructor
        · intro h
          simp at h
        · rintro ⟨heq, hnot⟩
          exfalso
          apply hnot
          have : c' = ':' := by
            have := heq
            simp only [List.cons_append] at this
            injection this with h1 _
            exact h1.symm
          rw [this]
          exact List.mem_cons_self _ _
    · cases hr : splitColonAux rest with
      | none =>
        have lhsNone : splitColonAux (c :: rest) = none := by
          simp [splitColonAux, hcol, hr]
        rw [lhsNone]
        simp only [reduceCtorEq, false_iff, not_and]
        intro heq hnot
        cases d with
        | nil =>
          simp only [List.nil_append] at heq
          injection heq with h1 _
          exact hcol h1
        | cons c' d' =>
          simp only [List.cons_append] at heq
          injection heq with h1 h2
          have hnotd' : ':' ∉ d' := fun hm =>
            hnot (List.mem_cons_of_mem _ hm)
          have := (ih d' a).mpr ⟨h2, hnotd'⟩
          rw [hr] at this
          exact Option.noConfusion this
      | some da =>
        obtain ⟨d0, a0⟩ := da
        have lhs : splitColonAux (c :: rest) = some (c :: d0, a0) := by
          simp [splitColonAux, hcol, hr]
        rw [lhs]
        obtain ⟨hrest, hnot0⟩ := (ih d0 a0).mp hr
        constructor
        · intro h
          simp only [Option.some.injEq, Prod.mk.injEq] at h
          obtain ⟨hd, ha⟩ := h
          subst hd
          subst ha
          refine ⟨by rw [hrest]; simp, ?_⟩
          intro hm
          rcases List.mem_cons.mp hm with h1 | h1
          · exact hcol h1.symm
          · exact hnot0 h1
        · rintro ⟨heq, hnot⟩
          cases d with
          | nil =>
            simp only [List.nil_append] at heq
            injection heq with h1 _
            exact absurd h1 hcol
          | cons c' d' =>
            simp only [List.cons_append] at heq
            injection heq with h1 h2
            have hnotd' : ':' ∉ d' := fun hm =>
              hnot (List.mem_cons_of_mem _ hm)
            have := (ih d' a).mpr ⟨h2, hnotd'⟩
            rw [hr] at this
            simp only [Option.some.injEq, Prod.mk.injEq] at this
            obtain ⟨hd0, ha0⟩ := this
            subst h1
            rw [hd0, ha0]

theorem evRun_splitColonAux_none {l : List Char}
    (h : splitColonAux l = none) :
    evRun .dTail l = false ∧ evRun .dAfterDot l = false := by
  induction l with
  | nil => exact ⟨rfl, rfl⟩
  | cons c rest ih =>
    by_cases hcol : c = ':'
    · subst hcol
      simp [splitColonAux] at h
    · have hr : splitColonAux rest = none := by
        rcases hrr : splitColonAux rest with _ | ⟨d, a⟩
        · rfl
        · simp [splitColonAux, hcol, hrr] at h
      obtain ⟨ihT, ihA⟩ := ih hr
      constructor
      · by_cases hdot : c = '.'
        · subst hdot
          simpa only [evRun, if_neg (by decide : ¬('.' : Char) = ':'),
            if_pos rfl] using ihA
        · simp only [evRun, if_neg hcol, if_neg hdot, ihT, Bool.and_false]
      · simp only [evRun, ihT, Bool.and_false]

theorem evRun_splitColonAux_some {l d a : List Char}
    (h : splitColonAux l = some (d, a)) :
    evRun .dTail l =
      (((splitDotsAux d).1.all segChar && (splitDotsAux d).2.all segOk) &&
        nameAfterColon a) ∧
    evRun .dAfterDot l =
      ((segOk (splitDotsAux d).1 && (splitDotsAux d).2.all segOk) &&
        nameAfterColon a) := by
  induction l generalizing d a with
  | nil => simp [splitColonAux] at h
  | cons c rest ih =>
    by_cases hcol : c = ':'
    · subst hcol
      simp only [splitColonAux, if_pos rfl, if_true, Option.some.injEq,
        Prod.mk.injEq] at h
      obtain ⟨hd, ha⟩ := h
      subst hd
      subst ha
      constructor
      · simp +decide [evRun, splitDotsAux]
      · simp +decide [evRun, segChar_colon, splitDotsAux, segOk]
    · cases hrr : splitColonAux rest with
      | none => simp [splitColonAux, hcol, hrr] at h
      | some da =>
        obtain ⟨d0, a0⟩ := da
        simp only [splitColonAux, if_neg hcol, hrr, Option.some.injEq,
          Prod.mk.injEq] at h
        obtain ⟨hd, ha⟩ := h
        subst hd
        subst ha
        obtain ⟨ihT, ihA⟩ := ih hrr
        by_cases hdot : c = '.'
        · subst hdot
          constructor
          · simp only [evRun, if_neg (by decide : ¬('.' : Char) = ':'),
              if_pos rfl, ihA]
            simp [splitDotsAux, segOk]
          · simp only [evRun, segChar_dot, Bool.false_and]
            simp [splitDotsAux, segOk]
        · have hsa : splitDotsAux (c :: d0) =
              (c :: (splitDotsAux d0).1, (splitDotsAux d0).2) := by
            simp [splitDotsAux, hdot]
          constructor
          · simp only [evRun, if_neg hcol, if_neg hdot, ihT, hsa]
            cases hsc : segChar c <;>
              simp [hsc, List.all_cons, Bool.and_assoc]
          · simp only [evRun, ihT, hsa]
            cases hsc : segChar c <;>
              simp [hsc, segOk, List.all_cons, Bool.and_assoc]

/-- The grammar of one half of an event name,
`[a-z][a-z0-9-]*(\.[a-z0-9-]+)*`, read as dot-separated segments. -/
def NamePartSpec (l : List Char) : Prop :=
  (∀ seg ∈ splitDots l, seg ≠ [] ∧ ∀ c ∈ seg, segChar c = true) ∧
  (∃ c cs, (splitDots l).head? = some (c :: cs) ∧ isLowerAZ c = true)

theorem namePart_cons_iff (c : Char) (l : List Char) :
    (isLowerAZ c &&
        ((splitDotsAux l).1.all segChar && (splitDotsAux l).2.all segOk)) =
        true ↔
      NamePartSpec (c :: l) := by
  unfold NamePartSpec
  by_cases hc : c = '.'
  · subst hc
    simp only [isLowerAZ_dot, Bool.false_and, Bool.false_eq_true, false_iff]
    rintro ⟨-, c', cs, hhead, -⟩
    simp [splitDots, splitDotsAux] at hhead
  · have hsplit : splitDots (c :: l) =
        (c :: (splitDotsAux l).1) :: (splitDotsAux l).2 := by
      simp [splitDots, splitDotsAux, hc]
    rw [hsplit]
    constructor
    · intro h
      simp only [Bool.and_eq_true] at h
      obtain ⟨hlow, hall, hok⟩ := h
      refine ⟨?_, c, (splitDotsAux l).1, rfl, hlow⟩
      intro seg hseg
      rcases List.mem_cons.mp hseg with hfirst | hlater
      · subst hfirst
        refine ⟨by simp, ?_⟩
        intro x hx
        rcases List.mem_cons.mp hx with rfl | hx'
        · exact segChar_of_isLowerAZ hlow
        · exact List.all_eq_true.mp hall x hx'
      · exact (segOk_iff seg).mp (List.all_eq_true.mp hok seg hlater)
    · rintro ⟨hsegs, c', cs, hhead, hlow⟩
      simp only [List.head?_cons, Option.some.injEq] at hhead
      injection hhead with h1 h2
      subst h1
      subst h2
      simp only [Bool.and_eq_true]
      refine ⟨hlow, ?_, ?_⟩
      · exact List.all_eq_true.mpr fun x hx =>
          (hsegs _ (List.mem_cons_self _ _)).2 x (List.mem_cons_of_mem _ hx)
      · exact List.all_eq_true.mpr fun seg hseg =>
          (segOk_iff seg).mpr (hsegs seg (List.mem_cons_of_mem _ hseg))

theorem nameAfterColon_iff (l : List Char) :
    nameAfterColon l = true ↔ NamePartSpec l := by
  cases l with
  | nil =>
    simp only [nameAfterColon, Bool.false_eq_true, false_iff]
    rintro ⟨-, c, cs, hhead, -⟩
    simp [splitDots, splitDotsAux] at hhead
  | cons c rest =>
    have hv : nameAfterColon (c :: rest) =
        (isLowerAZ c && idRun .inSeg rest) := rfl
    rw [hv, (idRun_splitDots rest).2.2]
    exact namePart_cons_iff c rest

theorem exists_seg_of_mem {c : Char} (hne : c ≠ '.') :
    ∀ l : List Char, c ∈ l → ∃ seg ∈ splitDots l, c ∈ seg := by
  intro l
  induction l with
  | nil =>
    intro hm
    cases hm
  | cons x rest ih =>
    intro hm
    by_cases hx : x = '.'
    · subst hx
      have hm' : c ∈ rest := by
        rcases List.mem_cons.mp hm with rfl | h
        · exact absurd rfl hne
        · exact h
      obtain ⟨seg, hseg, hcseg⟩ := ih hm'
      have hsp : splitDots ('.' :: rest) = [] :: splitDots rest := by
        simp [splitDots, splitDotsAux]
      rw [hsp]
      exact ⟨seg, List.mem_cons_of_mem _ hseg, hcseg⟩
    · have hsplit : splitDots (x :: rest) =
          (x :: (splitDotsAux rest).1) :: (splitDotsAux rest).2 := by
        simp [splitDots, splitDotsAux, hx]
      rw [hsplit]
      rcases List.mem_cons.mp hm with rfl | hm'
      · exact ⟨c :: (splitDotsAux rest).1, List.mem_cons_self _ _,
          List.mem_cons_self _ _⟩
      · obtain ⟨seg, hseg, hcseg⟩ := ih hm'
        have hseg' : seg ∈ (splitDotsAux rest).1 :: (splitDotsAux rest).2 :=
          hseg
        rcases List.mem_cons.mp hseg' with hfirst | hlater
        · exact ⟨x :: (splitDotsAux rest).1, List.mem_cons_self _ _,
            List.mem_cons_of_mem _ (hfirst ▸ hcseg)⟩
        · exact ⟨seg, List.mem_cons_of_mem _ hlater, hcseg⟩

theorem NamePartSpec.no_colon {l : List Char} (h : NamePartSpec l) :
    ':' ∉ l := by
  intro hm
  obtain ⟨seg, hseg, hcs⟩ := exists_seg_of_mem (by decide) l hm
  have hsc := (h.1 seg hseg).2 ':' hcs
  rw [segChar_colon] at hsc
  exact Bool.noConfusion hsc

/-- The specification-side reading of the event-name grammar: a
`domain:action` pair, lowercase, with optional dot-segmented parts on
either side of a single colon. -/
def EventNameSpec (s : String) : Prop :=
  ∃ d a : List Char,
    s.data = d ++ ':' :: a ∧ NamePartSpec d ∧ NamePartSpec a

theorem isValidEventName_iff (s : String) :
    isValidEventName s = true ↔ EventNameSpec s := by
  unfold EventNameSpec
  cases hd : s.data with
  | nil =>
    have hv : isValidEventName s = false := by
      unfold isValidEventName
      rw [hd]
    rw [hv]
    simp only [Bool.false_eq_true, false_iff]
    rintro ⟨d, a, heq, -, -⟩
    simp at heq
  | cons c rest =>
    have hv : isValidEventName s = (isLowerAZ c && evRun .dTail rest) := by
      unfold isValidEventName
      rw [hd]
    rw [hv]
    cases hsc : splitColonAux rest with
    | none =>
      rw [(evRun_splitColonAux_none hsc).1]
      simp only [Bool.and_false, Bool.false_eq_true, false_iff]
      rintro ⟨d, a, heq, hnd, hna⟩
      cases d with
      | nil =>
        obtain ⟨-, c', cs, hhead, -⟩ := hnd
        simp [splitDots, splitDotsAux] at hhead
      | cons c' d' =>
        simp only [List.cons_append] at heq
        injection heq with h1 h2
        have hnotd' : ':' ∉ d' := fun hm =>
          (NamePartSpec.no_colon hnd) (List.mem_cons_of_mem _ hm)
        have hsome := (splitColonAux_eq_some rest d' a).mpr ⟨h2, hnotd'⟩
        rw [hsc] at hsome
        exact Option.noConfusion hsome
    | some da =>
      obtain ⟨d0, a0⟩ := da
      rw [(evRun_splitColonAux_some hsc).1]
      obtain ⟨hrest, hnot0⟩ := (splitColonAux_eq_some rest d0 a0).mp hsc
      constructor
      · intro h
        simp only [Bool.and_eq_true] at h
        obtain ⟨hlow, hXY, hname⟩ := h
        refine ⟨c :: d0, a0, by rw [hrest]; rfl, ?_,
          (nameAfterColon_iff a0).mp hname⟩
        exact (namePart_cons_iff c d0).mp (by simp [hlow, hXY])
      · rintro ⟨d, a, heq, hnd, hna⟩
        cases d with
        | nil =>
          obtain ⟨-, c', cs, hhead, -⟩ := hnd
          simp [splitDots, splitDotsAux] at hhead
        | cons c' d' =>
          simp only [List.cons_append] at heq
          injection heq with h1 h2
          subst h1
          have hnotd' : ':' ∉ d' := fun hm =>
            (NamePartSpec.no_colon hnd) (List.mem_cons_of_mem _ hm)
          have hsome := (splitColonAux_eq_some rest d' a).mpr ⟨h2, hnotd'⟩
          rw [hsc] at hsome
          simp only [Option.some.injEq, Prod.mk.injEq] at hsome
          obtain ⟨hd0, ha0⟩ := hsome
          subst hd0
          subst ha0
          have hb := (namePart_cons_iff c _).mpr hnd
          simp only [Bool.and_eq_true] at hb ⊢
          exact ⟨hb.1, hb.2, (nameAfterColon_iff _).mpr hna⟩

/-! ## Insertion-ordered maps (JS `Map`) and member lists (JS `Set`)

A JS `Map` is an insertion-ordered association list with unique keys:
`set` replaces in place or appends, `delete` removes the key's entry.
A JS `Set` of handlers is an insertion-ordered duplicate-free list. -/

def mapLookup {V : Type} : List (String × V) → String → Option V
  | [], _ => none
  | (k, v) :: rest, key => if k = key then some v else mapLookup rest key

def mapSet {V : Type} : List (String × V) → String → V → List (String × V)
  | [], key, v => [(key, v)]
  | (k, w) :: rest, key, v =>
    if k = key then (k, v) :: rest else (k, w) :: mapSet rest key v

def mapDelete {V : Type} : List (String × V) → String → List (String × V)
  | [], _ => []
  | (k, w) :: rest, key =>
    if k = key then rest else (k, w) :: mapDelete rest key

theorem mapLookup_mapSet_self {V : Type} (m : List (String × V)) (k : String)
    (v : V) : mapLookup (mapSet m k v) k = some v := by
  induction m with
  | nil => simp [mapSet, mapLookup]
  | cons kv rest ih =>
    obtain ⟨k', w⟩ := kv
    by_cases hk : k' = k
    · subst hk
      simp [mapSet, mapLookup]
    · simp [mapSet, mapLookup, hk, ih]

theorem mem_keys_mapSet {V : Type} (m : List (String × V)) (k x : String)
    (v : V) :
    x ∈ (mapSet m k v).map Prod.fst ↔ x ∈ m.map Prod.fst ∨ x = k := by
  induction m with
  | nil => simp [mapSet]
  | cons kv rest ih =>
    obtain ⟨k', w⟩ := kv
    by_cases hk : k' = k
    · subst hk
      simp [mapSet]
      tauto
    · simp [mapSet, hk, ih]
      tauto

theorem mapSet_keys_nodup {V : Type} {m : List (String × V)} (k : String)
    (v : V) (h : (m.map Prod.fst).Nodup) :
    ((mapSet m k v).map Prod.fst).Nodup := by
  induction m with
  | nil => simp [mapSet]
  | cons kv rest ih =>
    obtain ⟨k', w⟩ := kv
    simp only [List.map_cons, List.nodup_cons] at h
    obtain ⟨hnk, hnd⟩ := h
    by_cases hk : k' = k
    · subst hk
      simp only [mapSet, if_pos rfl, if_true, List.map_cons, List.nodup_cons]
      exact ⟨hnk, hnd⟩
    · simp only [mapSet, if_neg hk, List.map_cons, List.nodup_cons]
      refine ⟨?_, ih hnd⟩
      intro hmem
      rcases (mem_keys_mapSet rest k k' v).mp hmem with hx | hx
      · exact hnk hx
      · exact hk hx

theorem mapLookup_eq_none {V : Type} {m : List (String × V)} {k : String}
    (h : k ∉ m.map Prod.fst) : mapLookup m k = none := by
  induction m with
  | nil => rfl
  | cons kv rest ih =>
    obtain ⟨k', w⟩ := kv
    simp only [List.map_cons, List.mem_cons, not_or] at h
    obtain ⟨hne, hrest⟩ := h
    have : ¬k' = k := fun hh => hne hh.symm
    simp [mapLookup, this, ih hrest]

theorem mapLookup_mapDelete_self {V : Type} {m : List (String × V)}
    (k : String) (h : (m.map Prod.fst).Nodup) :
    mapLookup (mapDelete m k) k = none := by
  induction m with
  | nil => rfl
  | cons kv rest ih =>
    obtain ⟨k', w⟩ := kv
    simp only [List.map_cons, List.nodup_cons] at h
    obtain ⟨hnk, hnd⟩ := h
    by_cases hk : k' = k
    · subst hk
      simp only [mapDelete, if_pos rfl, if_true]
      exact mapLookup_eq_none hnk
    · simp only [mapDelete, if_neg hk, mapLookup, if_neg hk]
      exact ih hnd

/-! ## EventBus (`src/core/events/eventBus.ts`)

The bus stores, per event name, the JS `Set` of subscribed handler
references; handlers are identified here by numeric tokens and their
code is a `behavior` function supplied at `emit` time, returning
`Except.error` when the handler throws.  `emit` iterates a snapshot copy
of the handler set and invokes each handler inside `try/catch`: the
returned invocation list records every call and its caught outcome, and
`emit` itself is total — a throwing handler stops neither the loop nor
the emitter. -/

structure EventBus : Type where
  listeners : List (String × List Nat)

structure Invocation (P E : Type) : Type where
  handler : Nat
  payload : P
  result : Except E Unit

namespace EventBus

/-- `on(event, handler)` (named `on'` because `on` is a reserved token
here): create the event's `Set` when absent, then `Set.add` the handler
(a no-op on an already-subscribed handler).  The source returns an
unsubscribe closure `() => this.off(event, handler)`; calling it is
modelled by `off` below. -/
def on' (bus : EventBus) (event : String) (h : Nat) : EventBus :=
  match mapLookup bus.listeners event with
  | none => ⟨mapSet bus.listeners event [h]⟩
  | some hs => if h ∈ hs then bus else ⟨mapSet bus.listeners event (hs ++ [h])⟩

/-- `off(event, handler)`: `Set.delete` the handler and drop the event
key entirely once its handler set is empty. -/
def off (bus : EventBus) (event : String) (h : Nat) : EventBus :=
  match mapLookup bus.listeners event with
  | none => bus
  | some hs =>
    let hs' := hs.filter (fun x => x != h)
    if hs'.isEmpty then ⟨mapDelete bus.listeners event⟩
    else ⟨mapSet bus.listeners event hs'⟩

/-- `emit(event, payload)`: invoke every handler of the event's set with
the payload, catching each handler's error individually. -/
def emit {P E : Type} (bus : EventBus) (behavior : Nat → P → Except E Unit)
    (event : String) (p : P) : List (Invocation P E) :=
  match mapLookup bus.listeners event with
  | none => []
  | some hs => hs.map fun h => ⟨h, p, behavior h p⟩

theorem emit_eq_of_lookup {P E : Type} (bus : EventBus)
    (behavior : Nat → P → Except E Unit) (event : String) (p : P) :
    bus.emit behavior event p =
      ((mapLookup bus.listeners event).getD []).map
        fun h => ⟨h, p, behavior h p⟩ := by
  unfold emit
  cases mapLookup bus.listeners event <;> simp

end EventBus

/-- Behaviour used by concrete bus examples: handler 1 throws, every
other handler returns normally. -/
def exBehavior : Nat → Nat → Except Unit Unit := fun h _ =>
  if h = 1 then Except.error () else Except.ok ()

/-- Claim C6: if one of two handlers subscribed to the same event throws
during `emit`, the error is caught (it never reaches the emitter: `emit`
always returns its full invocation list) and the other handler is still
invoked with the same payload in that same emission pass. -/
theorem EventBus.emit_error_isolated {P E : Type} (bus : EventBus)
    (behavior : Nat → P → Except E Unit) (event : String) (p : P)
    (hs : List Nat) (h1 h2 : Nat) (e : E)
    (hlook : mapLookup bus.listeners event = some hs)
    (h1mem : h1 ∈ hs) (h2mem : h2 ∈ hs)
    (hthrow : behavior h1 p = Except.error e) :
    (⟨h1, p, Except.error e⟩ : Invocation P E) ∈ bus.emit behavior event p ∧
    (⟨h2, p, behavior h2 p⟩ : Invocation P E) ∈ bus.emit behavior event p ∧
    (bus.emit behavior event p).length = hs.length := by
  have hv : bus.emit behavior event p = hs.map fun h => ⟨h, p, behavior h p⟩ := by
    unfold EventBus.emit
    rw [hlook]
  rw [hv]
  refine ⟨?_, ?_, by simp⟩
  · exact List.mem_map.mpr ⟨h1, h1mem, by rw [hthrow]⟩
  · exact List.mem_map.mpr ⟨h2, h2mem, rfl⟩

theorem EventBus.emit_error_isolated_witness :
    (⟨1, (0 : Nat), (Except.error () : Except Unit Unit)⟩ : Invocation Nat Unit) ∈
        EventBus.emit ⟨[("x", [1, 2])]⟩ exBehavior "x" 0 ∧
      (⟨2, 0, exBehavior 2 0⟩ : Invocation Nat Unit) ∈
        EventBus.emit ⟨[("x", [1, 2])]⟩ exBehavior "x" 0 ∧
      (EventBus.emit ⟨[("x", [1, 2])]⟩ exBehavior "x" 0).length =
        ([1, 2] : List Nat).length :=
  EventBus.emit_error_isolated ⟨[("x", [1, 2])]⟩ exBehavior "x" 0 [1, 2] 1 2 ()
    (by decide) (by decide) (by decide) rfl

theorem EventBus.on_eq_of_none {bus : EventBus} {event : String} {h : Nat}
    (hl : mapLookup bus.listeners event = none) :
    bus.on' event h = ⟨mapSet bus.listeners event [h]⟩ := by
  unfold EventBus.on'
  rw [hl]

theorem EventBus.on_eq_of_mem {bus : EventBus} {event : String} {h : Nat}
    {hs : List Nat} (hl : mapLookup bus.listeners event = some hs)
    (hm : h ∈ hs) : bus.on' event h = bus := by
  unfold EventBus.on'
  rw [hl]
  simp [hm]

theorem EventBus.on_eq_of_notMem {bus : EventBus} {event : String} {h : Nat}
    {hs : List Nat} (hl : mapLookup bus.listeners event = some hs)
    (hm : h ∉ hs) :
    bus.on' event h = ⟨mapSet bus.listeners event (hs ++ [h])⟩ := by
  unfold EventBus.on'
  rw [hl]
  simp [hm]

theorem EventBus.off_eq_of_empty {bus : EventBus} {event : String} {h : Nat}
    {hs : List Nat} (hl : mapLookup bus.listeners event = some hs)
    (he : (hs.filter (fun x => x != h)).isEmpty = true) :
    bus.off event h = ⟨mapDelete bus.listeners event⟩ := by
  unfold EventBus.off
  rw [hl]
  simp [he]

theorem EventBus.off_eq_of_nonempty {bus : EventBus} {event : String} {h : Nat}
    {hs : List Nat} (hl : mapLookup bus.listeners event = some hs)
    (he : (hs.filter (fun x => x != h)).isEmpty = false) :
    bus.off event h = ⟨mapSet bus.listeners event
      (hs.filter (fun x => x != h))⟩ := by
  unfold EventBus.off
  rw [hl]
  simp [he]

/-- After `on(event, h)` and the returned unsubscribe (`off(event, h)`),
the handler `h` is no longer registered for `event`; and when `h` was
the only handler there, the event key itself is gone. -/
theorem EventBus.lookup_after_on_off (bus : EventBus) (event : String)
    (h : Nat) (hwf : (bus.listeners.map Prod.fst).Nodup) :
    (mapLookup ((bus.on' event h).off event h).listeners event = none ∨
      ∃ hs', mapLookup ((bus.on' event h).off event h).listeners event =
          some hs' ∧ h ∉ hs') ∧
    ((mapLookup bus.listeners event = none ∨
        mapLookup bus.listeners event = some [h]) →
      mapLookup ((bus.on' event h).off event h).listeners event = none) := by
  cases hl : mapLookup bus.listeners event with
  | none =>
    have hon := EventBus.on_eq_of_none (h := h) hl
    have hl1 : mapLookup (bus.on' event h).listeners event = some [h] := by
      rw [hon]
      exact mapLookup_mapSet_self _ _ _
    have hfe : (([h] : List Nat).filter (fun x => x != h)).isEmpty = true := by
      simp
    have hoff := EventBus.off_eq_of_empty hl1 hfe
    have hwf1 : ((bus.on' event h).listeners.map Prod.fst).Nodup := by
      rw [hon]
      exact mapSet_keys_nodup _ _ hwf
    have hnone : mapLookup ((bus.on' event h).off event h).listeners event =
        none := by
      rw [hoff]
      exact mapLookup_mapDelete_self _ hwf1
    exact ⟨Or.inl hnone, fun _ => hnone⟩
  | some hs =>
    by_cases hmem : h ∈ hs
    · have hon := EventBus.on_eq_of_mem hl hmem
      rw [hon]
      cases he : (hs.filter (fun x => x != h)).isEmpty with
      | true =>
        have hoff := EventBus.off_eq_of_empty hl he
        have hnone : mapLookup ((bus.off event h)).listeners event = none := by
          rw [hoff]
          exact mapLookup_mapDelete_self _ hwf
        exact ⟨Or.inl hnone, fun _ => hnone⟩
      | false =>
        have hoff := EventBus.off_eq_of_nonempty hl he
        have hlook2 : mapLookup (bus.off event h).listeners event =
            some (hs.filter (fun x => x != h)) := by
          rw [hoff]
          exact mapLookup_mapSet_self _ _ _
        refine ⟨Or.inr ⟨_, hlook2, ?_⟩, ?_⟩
        · intro hin
          have := (List.mem_filter.mp hin).2
          simp at this
        · rintro (horig | horig)
          · exact Option.noConfusion horig
          · injection horig with heq
            rw [heq] at he
            simp at he
    · have hon := EventBus.on_eq_of_notMem hl hmem
      have hl1 : mapLookup (bus.on' event h).listeners event =
          some (hs ++ [h]) := by
        rw [hon]
        exact mapLookup_mapSet_self _ _ _
      have hwf1 : ((bus.on' event h).listeners.map Prod.fst).Nodup := by
        rw [hon]
        exact mapSet_keys_nodup _ _ hwf
      have hfilter : ((hs ++ [h]).filter (fun x => x != h)) = hs := by
        rw [List.filter_append]
        have h2 : ([h] : List Nat).filter (fun x => x != h) = [] := by simp
        have h1 : hs.filter (fun x => x != h) = hs :=
          List.filter_eq_self.mpr fun a ha => by
            simp only [bne_iff_ne, ne_eq, decide_eq_true_eq]
            intro haeq
            exact hmem (haeq ▸ ha)
        rw [h1, h2, List.append_nil]
      cases hse : hs with
      | nil =>
        have he : (((hs ++ [h]).filter (fun x => x != h))).isEmpty = true := by
          rw [hfilter, hse]
          rfl
        have hoff := EventBus.off_eq_of_empty hl1 he
        have hnone : mapLookup ((bus.on' event h).off event h).listeners
            event = none := by
          rw [hoff]
          exact mapLookup_mapDelete_self _ hwf1
        exact ⟨Or.inl hnone, fun _ => hnone⟩
      | cons a as =>
        have he : (((hs ++ [h]).filter (fun x => x != h))).isEmpty = false := by
          rw [hfilter, hse]
          rfl
        have hoff := EventBus.off_eq_of_nonempty hl1 he
        have hlook2 : mapLookup ((bus.on' event h).off event h).listeners
            event = some hs := by
          rw [hoff, hfilter]
          exact mapLookup_mapSet_self _ _ _
        refine ⟨Or.inr ⟨hs, hlook2, hmem⟩, ?_⟩
        rintro (horig | horig)
        · exact Option.noConfusion horig
        · injection horig with heq
          rw [hse, heq] at hmem
          exact absurd (List.mem_singleton_self h) hmem

/-- Claim C9: `on(event, h)` returns an unsubscribe function; after
calling it, a subsequent `emit(event, payload)` invokes no handler
registered by that `on` call, and when `h` was the only handler of the
event, no handler at all is invoked. -/
theorem EventBus.on_off_emit_none {P E : Type} (bus : EventBus)
    (event : String) (h : Nat) (behavior : Nat → P → Except E Unit) (p : P)
    (hwf : (bus.listeners.map Prod.fst).Nodup) :
    (∀ inv ∈ ((bus.on' event h).off event h).emit behavior event p,
      inv.handler ≠ h) ∧
    ((mapLookup bus.listeners event = none ∨
        mapLookup bus.listeners event = some [h]) →
      ((bus.on' event h).off event h).emit behavior event p = []) := by
  obtain ⟨hkey, hnone⟩ := EventBus.lookup_after_on_off bus event h hwf
  constructor
  · intro inv hinv
    rw [EventBus.emit_eq_of_lookup] at hinv
    rcases hkey with hk | ⟨hs', hk, hnot⟩
    · rw [hk] at hinv
      simp at hinv
    · rw [hk] at hinv
      simp only [Option.getD_some] at hinv
      obtain ⟨x, hx, hxe⟩ := List.mem_map.mp hinv
      subst hxe
      intro heqh
      have hxh : x = h := heqh
      exact hnot (hxh ▸ hx)
  · intro horig
    rw [EventBus.emit_eq_of_lookup, hnone horig]
    rfl

theorem EventBus.on_off_emit_none_witness :
    (∀ inv ∈ ((EventBus.on' (EventBus.mk []) "x" 5).off "x" 5).emit
        exBehavior "x" (0 : Nat), inv.handler ≠ 5) ∧
      ((mapLookup (EventBus.mk []).listeners "x" = none ∨
          mapLookup (EventBus.mk []).listeners "x" = some [5]) →
        ((EventBus.on' (EventBus.mk []) "x" 5).off "x" 5).emit
          exBehavior "x" 0 = []) :=
  EventBus.on_off_emit_none (EventBus.mk []) "x" 5 exBehavior 0 (by simp)

/-- Claim C3 counterexample: `emit` dispatches under the event name
`"Module:Activated"` without any error — the subscribed handler is
invoked — even though that name fails `EVENT_NAME_PATTERN`.  So not
every name accepted by `emit` matches the pattern. -/
theorem emit_accepts_invalid_name :
    EventBus.emit (EventBus.mk [("Module:Activated", [7])])
        (fun _ _ => Except.ok ()) "Module:Activated" (0 : Nat) =
      [⟨7, 0, (Except.ok () : Except Unit Unit)⟩] ∧
    isValidEventName "Module:Activated" = false := by
  constructor
  · rfl
  · decide

/-- Claim C3 (amended): event-name validation lives in
`assertEventName`, which accepts exactly the names matching
`EVENT_NAME_PATTERN` (lowercase dot-segmented `domain:action`) and
throws on `"Module:Activated"`; `EventBus.emit` itself performs no
validation — for any name string whatsoever it dispatches to exactly
the handlers registered under that name. -/
theorem assertEventName_spec :
    (∀ s : String, assertEventName s = Except.ok () ↔ EventNameSpec s) ∧
    assertEventName "Module:Activated" =
      Except.error EventNameError.invalidEventName ∧
    (∀ (bus : EventBus) (event : String) (p : Nat)
        (behavior : Nat → Nat → Except Unit Unit),
      bus.emit behavior event p =
        ((mapLookup bus.listeners event).getD []).map
          fun h => ⟨h, p, behavior h p⟩) := by
  refine ⟨?_, by rfl, ?_⟩
  · intro s
    unfold assertEventName
    by_cases hv : isValidEventName s = true
    · rw [if_pos hv]
      constructor
      · intro _
        exact (isValidEventName_iff s).mp hv
      · intro _
        rfl
    · rw [if_neg hv]
      constructor
      · intro hcontra
        exact Except.noConfusion hcontra
      · intro hspec
        exact absurd ((isValidEventName_iff s).mpr hspec) hv
  · intro bus event p behavior
    exact EventBus.emit_eq_of_lookup bus behavior event p

/-! ## Module data model (`src/core/modules/types.ts`)

Async `enabled`/`supports` predicates are embedded as the `Option Bool`
they resolve to for the fixed boot context; lifecycle hooks are embedded
as presence flags, and a present hook's invocation is recorded as a
trace entry (the hook bodies are external code that does not touch the
manager's state). -/

inductive ModuleActivationMode : Type
  | exclusive
  | parallel
  | background
deriving DecidableEq

inductive UIKind : Type
  | workspace
  | utility
deriving DecidableEq

structure ModuleUIDescriptor : Type where
  kind : UIKind
  viewId : String
  title : Option String := none
  icon : Option String := none
  description : Option String := none
deriving DecidableEq

structure ModuleManifest : Type where
  id : String
  name : String
  version : String
  category : Option String := none
  icon : Option String := none
  activationMode : Option ModuleActivationMode := none
  ui : Option ModuleUIDescriptor := none
  enabled : Option Bool := none
  supports : Option Bool := none
deriving DecidableEq

structure LifecycleHooks : Type where
  onInit : Bool := false
  onActivate : Bool := false
  onDeactivate : Bool := false
  onDispose : Bool := false
deriving DecidableEq

structure ModuleInstance : Type where
  manifest : ModuleManifest
  lifecycle : LifecycleHooks := {}
deriving DecidableEq

/-- A module definition: its manifest plus the instance its factory
returns for the boot context. -/
structure ModuleDefinition : Type where
  manifest : ModuleManifest
  factoryOut : ModuleInstance
deriving DecidableEq

/-! ## ModuleRegistry (`src/core/modules/registry.ts`, the variant with
duplicate detection and view-reference checking) -/

inductive RegError : Type
  | invalidModuleId
  | duplicateModuleId
  | unknownViewReference
deriving DecidableEq

structure ModuleRegistry : Type where
  definitions : List (String × ModuleDefinition)
  viewResolver : Option (String → Bool) := none

/-- `register(definition)`: invalid-id check, duplicate-id check, then —
when the manifest declares a nonempty `viewId` and a resolver is
configured — the view-reference check; on success the definition is
stored keyed by its id. -/
def ModuleRegistry.register (r : ModuleRegistry) (d : ModuleDefinition) :
    Except RegError ModuleRegistry :=
  if !(isValidModuleId d.manifest.id) then Except.error .invalidModuleId
  else if (mapLookup r.definitions d.manifest.id).isSome then
    Except.error .duplicateModuleId
  else
    let viewBad : Bool :=
      match d.manifest.ui, r.viewResolver with
      | some u, some res => !u.viewId.isEmpty && !(res u.viewId)
      | _, _ => false
    if viewBad then Except.error .unknownViewReference
    else Except.ok ⟨mapSet r.definitions d.manifest.id d, r.viewResolver⟩

def ModuleRegistry.unregister (r : ModuleRegistry) (moduleId : String) :
    ModuleRegistry :=
  ⟨mapDelete r.definitions moduleId, r.viewResolver⟩

def ModuleRegistry.list (r : ModuleRegistry) : List ModuleDefinition :=
  r.definitions.map Prod.snd

def ModuleRegistry.get (r : ModuleRegistry) (moduleId : String) :
    Option ModuleDefinition :=
  mapLookup r.definitions moduleId

def ModuleRegistry.setViewResolver (r : ModuleRegistry)
    (resolver : String → Bool) : ModuleRegistry :=
  ⟨r.definitions, some resolver⟩

/-- Claim C5: a second `register` with an already-present id fails with
`DuplicateModuleId`, and the registry still holds exactly the first
definition for that id (the failed call changes nothing — `register`
returns the error before constructing any new state). -/
theorem ModuleRegistry.register_duplicate (r : ModuleRegistry)
    (d1 d2 : ModuleDefinition) (X : String)
    (hfound : mapLookup r.definitions X = some d1)
    (hid : d2.manifest.id = X)
    (hvalid : isValidModuleId X = true) :
    r.register d2 = Except.error RegError.duplicateModuleId ∧
    ModuleRegistry.get r X = some d1 := by
  refine ⟨?_, hfound⟩
  have h1 : isValidModuleId d2.manifest.id = true := by
    rw [hid]
    exact hvalid
  have h2 : (mapLookup r.definitions d2.manifest.id).isSome = true := by
    rw [hid, hfound]
    rfl
  unfold ModuleRegistry.register
  rw [h1, h2]
  rfl

def mExA : ModuleManifest := { id := "a.b", name := "A", version := "1.0.0" }

def mExB : ModuleManifest := { id := "a.b", name := "B", version := "2.0.0" }

def dExA : ModuleDefinition := ⟨mExA, ⟨mExA, {}⟩⟩

def dExB : ModuleDefinition := ⟨mExB, ⟨mExB, {}⟩⟩

theorem ModuleRegistry.register_duplicate_witness :
    ModuleRegistry.register ⟨[("a.b", dExA)], none⟩ dExB =
        Except.error RegError.duplicateModuleId ∧
      ModuleRegistry.get ⟨[("a.b", dExA)], none⟩ "a.b" = some dExA :=
  ModuleRegistry.register_duplicate ⟨[("a.b", dExA)], none⟩ dExA dExB "a.b"
    (by decide) rfl (by decide)

/-! ## ModuleManager (`src/core/modules/manager.ts`)

State: the JS `Set` of active module ids (insertion-ordered,
duplicate-free), the single active-exclusive id, and the JS `Map` of
instances.  Each operation returns the new state together with the trace
of awaited lifecycle-hook calls and emitted events, in execution order
(sequential trace order models await order). -/

inductive HookKind : Type
  | onInit
  | onActivate
  | onDeactivate
  | onDispose
deriving DecidableEq

inductive EmittedEvent : Type
  | modulesReady (moduleIds : List String)
  | moduleActivated (moduleId : String) (activationMode : ModuleActivationMode)
      (activeExclusiveModuleId : Option String) (activeModuleIds : List String)
  | moduleDeactivated (moduleId : String)
      (activeExclusiveModuleId : Option String) (activeModuleIds : List String)
  | modulesDeactivated (activeModuleIds : List String)
deriving DecidableEq

inductive TraceEvent : Type
  | hook (moduleId : String) (kind : HookKind)
  | emitted (e : EmittedEvent)
deriving DecidableEq

structure ManagerState : Type where
  activeModuleIds : List String
  activeExclusiveModuleId : Option String
  instances : List (String × ModuleInstance)
deriving DecidableEq

def initialManagerState : ManagerState := ⟨[], none, []⟩

/-- JS `Set.add`: append when absent. -/
def setAdd (s : List String) (id : String) : List String :=
  if id ∈ s then s else s ++ [id]

/-- The trace of one optional lifecycle hook: a call entry when the
module declares the hook, nothing otherwise. -/
def hookTrace (moduleId : String) (present : Bool) (k : HookKind) :
    List TraceEvent :=
  if present then [.hook moduleId k] else []

namespace ModuleManager

/-- `instance.manifest.activationMode ?? "exclusive"`. -/
def getActivationMode (inst : ModuleInstance) : ModuleActivationMode :=
  inst.manifest.activationMode.getD .exclusive

/-- Skip instantiation when a declared `enabled` or `supports` predicate
resolves to false (an absent predicate defaults to true). -/
def isModuleEnabled (d : ModuleDefinition) : Bool :=
  d.manifest.enabled.getD true && d.manifest.supports.getD true

/-- `activate(moduleId)`: no-op when unknown or already active;
otherwise, for an exclusive instance, await the current exclusive
module's `onDeactivate` and remove it from the active set (parallel and
background members untouched) and take over the exclusive slot; in all
cases add the id to the active set, await `onActivate`, and emit
`module:activated` with the post-state. -/
def activate (s : ManagerState) (moduleId : String) :
    ManagerState × List TraceEvent :=
  match mapLookup s.instances moduleId with
  | none => (s, [])
  | some next =>
    if moduleId ∈ s.activeModuleIds then (s, [])
    else
      let mode := getActivationMode next
      let step1 : ManagerState × List TraceEvent :=
        if mode = .exclusive then
          match s.activeExclusiveModuleId with
          | some currentId =>
            let trDeact :=
              match mapLookup s.instances currentId with
              | some current =>
                hookTrace currentId current.lifecycle.onDeactivate .onDeactivate
              | none => []
            ({ s with
                activeModuleIds :=
                  s.activeModuleIds.filter (fun x => x != currentId),
                activeExclusiveModuleId := some moduleId }, trDeact)
          | none => ({ s with activeExclusiveModuleId := some moduleId }, [])
        else (s, [])
      let s2 : ManagerState :=
        { step1.1 with activeModuleIds := setAdd step1.1.activeModuleIds moduleId }
      (s2, step1.2 ++ hookTrace moduleId next.lifecycle.onActivate .onActivate ++
        [.emitted (.moduleActivated moduleId mode s2.activeExclusiveModuleId
          s2.activeModuleIds)])

/-- One turn of `initAll`'s loop over the registered definitions. -/
def initStep (acc : ManagerState × List TraceEvent) (d : ModuleDefinition) :
    ManagerState × List TraceEvent :=
  if isModuleEnabled d then
    let inst := d.factoryOut
    let s1 : ManagerState :=
      { acc.1 with instances := mapSet acc.1.instances d.manifest.id inst }
    let trInit := hookTrace d.manifest.id inst.lifecycle.onInit .onInit
    if getActivationMode inst = .background then
      let r := activate s1 d.manifest.id
      (r.1, acc.2 ++ trInit ++ r.2)
    else (s1, acc.2 ++ trInit)
  else acc

/-- `initAll()`: instantiate every enabled definition in registration
order (store the instance, await `onInit`, auto-activate `background`
instances), then emit `modules:ready` with the instantiated ids. -/
def initAll (s : ManagerState) (definitions : List ModuleDefinition) :
    ManagerState × List TraceEvent :=
  let r := definitions.foldl initStep (s, [])
  (r.1, r.2 ++ [.emitted (.modulesReady (r.1.instances.map Prod.fst))])

/-- `disposeAll()`: await every instance's `onDispose` in insertion
order, then clear all instance and activation state. -/
def disposeAll (s : ManagerState) : ManagerState × List TraceEvent :=
  (initialManagerState,
    (s.instances.map fun kv =>
      hookTrace kv.1 kv.2.lifecycle.onDispose .onDispose).flatten)

/-- Modelled from the spec: `ModuleManager.getSnapshot` is not in the
staged sources (`kernel.ts` only calls it); the spec: "returns
`{activeExclusiveModuleId, activeModuleIds}` — the only externally
observable activation state". -/
structure Snapshot : Type where
  activeExclusiveModuleId : Option String
  activeModuleIds : List String
deriving DecidableEq

def getSnapshot (s : ManagerState) : Snapshot :=
  ⟨s.activeExclusiveModuleId, s.activeModuleIds⟩

/-- Modelled from the spec: `deactivate(id)` is not in the staged
sources (`kernel.ts` only forwards to it); the spec: "invokes
`onDeactivate` if the module is active, removes it from the active set,
clears the active-exclusive id if it was the exclusive module, and emits
`module:deactivated` with the resulting state". -/
def deactivate (s : ManagerState) (moduleId : String) :
    ManagerState × List TraceEvent :=
  let trDeact :=
    if moduleId ∈ s.activeModuleIds then
      match mapLookup s.instances moduleId with
      | some inst => hookTrace moduleId inst.lifecycle.onDeactivate .onDeactivate
      | none => []
    else []
  let s1 : ManagerState :=
    { s with
        activeModuleIds := s.activeModuleIds.filter (fun x => x != moduleId),
        activeExclusiveModuleId :=
          if s.activeExclusiveModuleId = some moduleId then none
          else s.activeExclusiveModuleId }
  (s1, trDeact ++ [.emitted (.moduleDeactivated moduleId
    s1.activeExclusiveModuleId s1.activeModuleIds)])

/-- Modelled from the spec: `deactivateAll()` is not in the staged
sources (`kernel.ts` only forwards to it); the spec: "deactivates every
currently active module (order: unspecified but each module's own
`onDeactivate` is awaited before moving to the next) and emits a bulk
'all deactivated' event" — the reserved name `modules:deactivated`. -/
def deactStep (acc : ManagerState × List TraceEvent) (id : String) :
    ManagerState × List TraceEvent :=
  ((deactivate acc.1 id).1, acc.2 ++ (deactivate acc.1 id).2)

def deactivateAll (s : ManagerState) : ManagerState × List TraceEvent :=
  let r := s.activeModuleIds.foldl deactStep (s, [])
  (r.1, r.2 ++ [.emitted (.modulesDeactivated r.1.activeModuleIds)])

end ModuleManager

theorem mem_setAdd_iff {s : List String} {x id : String} :
    x ∈ setAdd s id ↔ x ∈ s ∨ x = id := by
  unfold setAdd
  by_cases hm : id ∈ s
  · simp only [if_pos hm]
    constructor
    · exact Or.inl
    · rintro (hx | rfl)
      · exact hx
      · exact hm
  · simp [hm]

theorem mem_setAdd_self (s : List String) (id : String) : id ∈ setAdd s id :=
  mem_setAdd_iff.mpr (Or.inr rfl)

theorem mem_setAdd_of_mem {s : List String} {x : String} (id : String)
    (h : x ∈ s) : x ∈ setAdd s id :=
  mem_setAdd_iff.mpr (Or.inl h)

theorem setAdd_nodup {s : List String} (id : String) (h : s.Nodup) :
    (setAdd s id).Nodup := by
  unfold setAdd
  by_cases hm : id ∈ s
  · simp [hm, h]
  · simp [hm, List.nodup_append, h]

theorem mapLookup_mapSet_of_ne {V : Type} (m : List (String × V))
    {k k' : String} (v : V) (h : k ≠ k') :
    mapLookup (mapSet m k v) k' = mapLookup m k' := by
  induction m with
  | nil => simp [mapSet, mapLookup, h]
  | cons kv rest ih =>
    obtain ⟨k0, w⟩ := kv
    by_cases hk : k0 = k
    · subst hk
      simp [mapSet, mapLookup, h]
    · simp [mapSet, mapLookup, hk, ih]

theorem mapSet_eq_append_of_lookup_none {V : Type} {m : List (String × V)}
    {k : String} (v : V) (h : mapLookup m k = none) :
    mapSet m k v = m ++ [(k, v)] := by
  induction m with
  | nil => rfl
  | cons kv rest ih =>
    obtain ⟨k0, w⟩ := kv
    by_cases hk : k0 = k
    · subst hk
      simp [mapLookup] at h
    · simp only [mapLookup, if_neg hk] at h
      simp [mapSet, hk, ih h]

namespace ModuleManager

theorem activate_eq_of_none {s : ManagerState} {id : String}
    (hl : mapLookup s.instances id = none) :
    activate s id = (s, []) := by
  unfold activate
  rw [hl]

theorem activate_eq_of_mem {s : ManagerState} {id : String}
    {next : ModuleInstance} (hl : mapLookup s.instances id = some next)
    (hm : id ∈ s.activeModuleIds) :
    activate s id = (s, []) := by
  unfold activate
  rw [hl]
  simp [hm]

theorem activate_exclusive_switch {s : ManagerState} {id cur : String}
    {next curInst : ModuleInstance}
    (hl : mapLookup s.instances id = some next)
    (hm : id ∉ s.activeModuleIds)
    (hx : getActivationMode next = ModuleActivationMode.exclusive)
    (hce : s.activeExclusiveModuleId = some cur)
    (hlc : mapLookup s.instances cur = some curInst) :
    activate s id =
      (⟨setAdd (s.activeModuleIds.filter (fun x => x != cur)) id, some id,
          s.instances⟩,
        hookTrace cur curInst.lifecycle.onDeactivate .onDeactivate ++
          hookTrace id next.lifecycle.onActivate .onActivate ++
          [.emitted (.moduleActivated id .exclusive (some id)
            (setAdd (s.activeModuleIds.filter (fun x => x != cur)) id))]) := by
  unfold activate
  rw [hl]
  simp [hm, hx, hce, hlc]

theorem activate_exclusive_fresh {s : ManagerState} {id : String}
    {next : ModuleInstance}
    (hl : mapLookup s.instances id = some next)
    (hm : id ∉ s.activeModuleIds)
    (hx : getActivationMode next = ModuleActivationMode.exclusive)
    (hce : s.activeExclusiveModuleId = none) :
    activate s id =
      (⟨setAdd s.activeModuleIds id, some id, s.instances⟩,
        hookTrace id next.lifecycle.onActivate .onActivate ++
          [.emitted (.moduleActivated id .exclusive (some id)
            (setAdd s.activeModuleIds id))]) := by
  unfold activate
  rw [hl]
  simp [hm, hx, hce]

theorem activate_nonexclusive {s : ManagerState} {id : String}
    {next : ModuleInstance}
    (hl : mapLookup s.instances id = some next)
    (hm : id ∉ s.activeModuleIds)
    (hx : getActivationMode next ≠ ModuleActivationMode.exclusive) :
    activate s id =
      (⟨setAdd s.activeModuleIds id, s.activeExclusiveModuleId, s.instances⟩,
        hookTrace id next.lifecycle.onActivate .onActivate ++
          [.emitted (.moduleActivated id (getActivationMode next)
            s.activeExclusiveModuleId (setAdd s.activeModuleIds id))]) := by
  unfold activate
  rw [hl]
  simp [hm, hx]

end ModuleManager

namespace ModuleManager

theorem activate_exclusive_switch_noinst {s : ManagerState} {id cur : String}
    {next : ModuleInstance}
    (hl : mapLookup s.instances id = some next)
    (hm : id ∉ s.activeModuleIds)
    (hx : getActivationMode next = ModuleActivationMode.exclusive)
    (hce : s.activeExclusiveModuleId = some cur)
    (hlc : mapLookup s.instances cur = none) :
    activate s id =
      (⟨setAdd (s.activeModuleIds.filter (fun x => x != cur)) id, some id,
          s.instances⟩,
        hookTrace id next.lifecycle.onActivate .onActivate ++
          [.emitted (.moduleActivated id .exclusive (some id)
            (setAdd (s.activeModuleIds.filter (fun x => x != cur)) id))]) := by
  unfold activate
  rw [hl]
  simp [hm, hx, hce, hlc]

theorem deactivate_state (s : ManagerState) (id : String) :
    (deactivate s id).1 =
      ⟨s.activeModuleIds.filter (fun x => x != id),
        if s.activeExclusiveModuleId = some id then none
        else s.activeExclusiveModuleId,
        s.instances⟩ := rfl

/-- Well-formedness of a manager state: the active set is duplicate-free,
every active module has a stored instance, and the active-exclusive
module (when set) is in the active set. -/
def WF (s : ManagerState) : Prop :=
  s.activeModuleIds.Nodup ∧
  (∀ id ∈ s.activeModuleIds, (mapLookup s.instances id).isSome = true) ∧
  (∀ id, s.activeExclusiveModuleId = some id → id ∈ s.activeModuleIds)

theorem WF_initial : WF initialManagerState := by
  refine ⟨List.nodup_nil, ?_, ?_⟩ <;> intro id h <;> cases h

theorem WF_activate {s : ManagerState} (id : String) (h : WF s) :
    WF (activate s id).1 := by
  obtain ⟨hnd, hinst, hexcl⟩ := h
  cases hl : mapLookup s.instances id with
  | none =>
    rw [activate_eq_of_none hl]
    exact ⟨hnd, hinst, hexcl⟩
  | some next =>
    by_cases hm : id ∈ s.activeModuleIds
    · rw [activate_eq_of_mem hl hm]
      exact ⟨hnd, hinst, hexcl⟩
    · have hsome : (mapLookup s.instances id).isSome = true := by
        rw [hl]
        rfl
      by_cases hx : getActivationMode next = ModuleActivationMode.exclusive
      · cases hce : s.activeExclusiveModuleId with
        | some cur =>
          have hgoal : WF (⟨setAdd (s.activeModuleIds.filter
              (fun x => x != cur)) id, some id, s.instances⟩ : ManagerState) := by
            refine ⟨setAdd_nodup _ (hnd.filter _), ?_, ?_⟩
            · intro x hxm
              rcases mem_setAdd_iff.mp hxm with hxf | rfl
              · exact hinst x (List.mem_filter.mp hxf).1
              · exact hsome
            · intro x hxe
              injection hxe with hxe
              subst hxe
              exact mem_setAdd_self _ _
          cases hlc : mapLookup s.instances cur with
          | some curInst =>
            rw [activate_exclusive_switch hl hm hx hce hlc]
            exact hgoal
          | none =>
            rw [activate_exclusive_switch_noinst hl hm hx hce hlc]
            exact hgoal
        | none =>
          rw [activate_exclusive_fresh hl hm hx hce]
          refine ⟨setAdd_nodup _ hnd, ?_, ?_⟩
          · intro x hxm
            rcases mem_setAdd_iff.mp hxm with hxs | rfl
            · exact hinst x hxs
            · exact hsome
          · intro x hxe
            injection hxe with hxe
            subst hxe
            exact mem_setAdd_self _ _
      · rw [activate_nonexclusive hl hm hx]
        refine ⟨setAdd_nodup _ hnd, ?_, ?_⟩
        · intro x hxm
          rcases mem_setAdd_iff.mp hxm with hxs | rfl
          · exact hinst x hxs
          · exact hsome
        · intro x hxe
          exact mem_setAdd_of_mem _ (hexcl x hxe)

theorem WF_deactivate {s : ManagerState} (id : String) (h : WF s) :
    WF (deactivate s id).1 := by
  obtain ⟨hnd, hinst, hexcl⟩ := h
  rw [deactivate_state]
  refine ⟨hnd.filter _, ?_, ?_⟩
  · intro x hx
    exact hinst x (List.mem_filter.mp hx).1
  · intro x hx
    by_cases hc : s.activeExclusiveModuleId = some id
    · simp only [if_pos hc] at hx
      exact Option.noConfusion hx
    · simp only [if_neg hc] at hx
      refine List.mem_filter.mpr ⟨hexcl x hx, ?_⟩
      simp only [bne_iff_ne, ne_eq, decide_eq_true_eq]
      intro heq
      subst heq
      exact hc hx

theorem WF_instances_set {s : ManagerState} (k : String) (v : ModuleInstance)
    (h : WF s) :
    WF { s with instances := mapSet s.instances k v } := by
  obtain ⟨hnd, hinst, hexcl⟩ := h
  refine ⟨hnd, ?_, hexcl⟩
  intro id hid
  by_cases hk : k = id
  · subst hk
    rw [mapLookup_mapSet_self]
    rfl
  · rw [mapLookup_mapSet_of_ne _ _ hk]
    exact hinst id hid

theorem WF_initStep {acc : ManagerState × List TraceEvent}
    (d : ModuleDefinition) (h : WF acc.1) : WF (initStep acc d).1 := by
  unfold initStep
  by_cases he : isModuleEnabled d
  · simp only [if_pos he]
    have h1 : WF { acc.1 with
        instances := mapSet acc.1.instances d.manifest.id d.factoryOut } :=
      WF_instances_set _ _ h
    by_cases hb : getActivationMode d.factoryOut = ModuleActivationMode.background
    · simp only [if_pos hb]
      exact WF_activate _ h1
    · simp only [if_neg hb]
      exact h1
  · simp only [if_neg he]
    exact h

theorem WF_foldl_initStep (defs : List ModuleDefinition) :
    ∀ acc : ManagerState × List TraceEvent, WF acc.1 →
      WF (defs.foldl initStep acc).1 := by
  induction defs with
  | nil => exact fun acc h => h
  | cons d rest ih =>
    intro acc h
    exact ih _ (WF_initStep d h)

theorem WF_initAll {s : ManagerState} (defs : List ModuleDefinition)
    (h : WF s) : WF (initAll s defs).1 :=
  WF_foldl_initStep defs (s, []) h

theorem WF_foldl_deactivate (l : List String) :
    ∀ acc : ManagerState × List TraceEvent, WF acc.1 →
      WF (l.foldl deactStep acc).1 := by
  induction l with
  | nil => exact fun acc h => h
  | cons x rest ih =>
    intro acc h
    exact ih _ (WF_deactivate x h)

theorem WF_deactivateAll {s : ManagerState} (h : WF s) :
    WF (deactivateAll s).1 :=
  WF_foldl_deactivate s.activeModuleIds (s, []) h

end ModuleManager

/-- The manager operations a caller can drive (`initAll` over a
definition list, `activate`, the spec-modelled `deactivate` and
`deactivateAll`, and `disposeAll`). -/
inductive ManagerOp : Type
  | initAll (definitions : List ModuleDefinition)
  | activate (moduleId : String)
  | deactivate (moduleId : String)
  | deactivateAll
  | disposeAll

def applyOp (s : ManagerState) : ManagerOp → ManagerState
  | .initAll defs => (ModuleManager.initAll s defs).1
  | .activate id => (ModuleManager.activate s id).1
  | .deactivate id => (ModuleManager.deactivate s id).1
  | .deactivateAll => (ModuleManager.deactivateAll s).1
  | .disposeAll => (ModuleManager.disposeAll s).1

/-- The manager state reached from the initial state by a sequence of
operations. -/
def runOps (ops : List ManagerOp) : ManagerState :=
  ops.foldl applyOp initialManagerState

theorem WF_applyOp {s : ManagerState} (op : ManagerOp)
    (h : ModuleManager.WF s) : ModuleManager.WF (applyOp s op) := by
  cases op with
  | initAll defs => exact ModuleManager.WF_initAll defs h
  | activate id => exact ModuleManager.WF_activate id h
  | deactivate id => exact ModuleManager.WF_deactivate id h
  | deactivateAll => exact ModuleManager.WF_deactivateAll h
  | disposeAll => exact ModuleManager.WF_initial

theorem WF_runOps (ops : List ManagerOp) : ModuleManager.WF (runOps ops) := by
  have main : ∀ (l : List ManagerOp) (s : ManagerState), ModuleManager.WF s →
      ModuleManager.WF (l.foldl applyOp s) := by
    intro l
    induction l with
    | nil => exact fun s h => h
    | cons op rest ih => exact fun s h => ih _ (WF_applyOp op h)
  exact main ops initialManagerState ModuleManager.WF_initial

/-- Claim C10 (implicit invariant): in every manager state reachable
from the initial state by any operation sequence — in particular by
`initAll`, `activate` and `disposeAll` — a non-null
`activeExclusiveModuleId` is a member of `activeModuleIds` and refers to
a module whose instance is stored in the instance map. -/
theorem ModuleManager.exclusive_invariant (ops : List ManagerOp) (id : String)
    (h : (runOps ops).activeExclusiveModuleId = some id) :
    id ∈ (runOps ops).activeModuleIds ∧
      (mapLookup (runOps ops).instances id).isSome = true := by
  obtain ⟨hnd, hinst, hexcl⟩ := WF_runOps ops
  have hmem := hexcl id h
  exact ⟨hmem, hinst id hmem⟩

theorem ModuleManager.exclusive_invariant_witness :
    "a.b" ∈ (runOps [.initAll [dExA], .activate "a.b"]).activeModuleIds ∧
      (mapLookup (runOps [.initAll [dExA], .activate "a.b"]).instances
        "a.b").isSome = true :=
  ModuleManager.exclusive_invariant [.initAll [dExA], .activate "a.b"] "a.b"
    (by decide)

theorem ModuleManager.activate_instances (s : ManagerState) (id : String) :
    ((ModuleManager.activate s id).1).instances = s.instances := by
  cases hl : mapLookup s.instances id with
  | none => rw [ModuleManager.activate_eq_of_none hl]
  | some next =>
    by_cases hm : id ∈ s.activeModuleIds
    · rw [ModuleManager.activate_eq_of_mem hl hm]
    · by_cases hx : ModuleManager.getActivationMode next =
          ModuleActivationMode.exclusive
      · cases hce : s.activeExclusiveModuleId with
        | some cur =>
          cases hlc : mapLookup s.instances cur with
          | some curInst =>
            rw [ModuleManager.activate_exclusive_switch hl hm hx hce hlc]
          | none =>
            rw [ModuleManager.activate_exclusive_switch_noinst hl hm hx hce hlc]
        | none => rw [ModuleManager.activate_exclusive_fresh hl hm hx hce]
      · rw [ModuleManager.activate_nonexclusive hl hm hx]

/-- Claim C2: activating exclusive module `b` while exclusive module `a`
holds the workspace slot awaits `a`'s `onDeactivate` exactly once before
`b`'s `onActivate`, removes `a` from the active set without touching any
other member, makes `b` the active-exclusive id and a member of the
active set, and emits exactly one `module:activated` event whose payload
carries `activeExclusiveModuleId = b`. -/
theorem ModuleManager.activate_switch_spec (s : ManagerState) (a b : String)
    (na nb : ModuleInstance)
    (hexcl : s.activeExclusiveModuleId = some a)
    (hne : b ≠ a)
    (hlb : mapLookup s.instances b = some nb)
    (hmodeb : ModuleManager.getActivationMode nb =
      ModuleActivationMode.exclusive)
    (hbnot : b ∉ s.activeModuleIds)
    (hla : mapLookup s.instances a = some na)
    (hda : na.lifecycle.onDeactivate = true)
    (hab : nb.lifecycle.onActivate = true) :
    (ModuleManager.activate s b).1.activeExclusiveModuleId = some b ∧
    b ∈ (ModuleManager.activate s b).1.activeModuleIds ∧
    a ∉ (ModuleManager.activate s b).1.activeModuleIds ∧
    (∀ x, x ≠ a → x ≠ b →
      (x ∈ (ModuleManager.activate s b).1.activeModuleIds ↔
        x ∈ s.activeModuleIds)) ∧
    (ModuleManager.activate s b).2 =
      [.hook a .onDeactivate, .hook b .onActivate,
        .emitted (.moduleActivated b .exclusive (some b)
          (setAdd (s.activeModuleIds.filter (fun x => x != a)) b))] := by
  rw [ModuleManager.activate_exclusive_switch hlb hbnot hmodeb hexcl hla]
  refine ⟨rfl, mem_setAdd_self _ _, ?_, ?_, ?_⟩
  · intro hmem
    rcases mem_setAdd_iff.mp hmem with hf | hfb
    · have hba := (List.mem_filter.mp hf).2
      simp at hba
    · exact hne hfb.symm
  · intro x hxa hxb
    constructor
    · intro hx
      rcases mem_setAdd_iff.mp hx with hf | hfb
      · exact (List.mem_filter.mp hf).1
      · exact absurd hfb hxb
    · intro hx
      refine mem_setAdd_of_mem _ (List.mem_filter.mpr ⟨hx, ?_⟩)
      simp [bne_iff_ne, hxa]
  · simp [hookTrace, hda, hab]

def mExC : ModuleManifest := { id := "c.d", name := "C", version := "1" }

def mExP : ModuleManifest :=
  { id := "p.q", name := "P", version := "1",
    activationMode := some .parallel }

def iExA : ModuleInstance := ⟨mExA, ⟨false, true, true, false⟩⟩

def iExC : ModuleInstance := ⟨mExC, ⟨false, true, true, false⟩⟩

def iExP : ModuleInstance := ⟨mExP, {}⟩

def sEx : ManagerState :=
  ⟨["p.q", "a.b"], some "a.b",
    [("a.b", iExA), ("c.d", iExC), ("p.q", iExP)]⟩

theorem ModuleManager.activate_switch_spec_witness :
    (ModuleManager.activate sEx "c.d").1.activeExclusiveModuleId =
        some "c.d" ∧
      "c.d" ∈ (ModuleManager.activate sEx "c.d").1.activeModuleIds ∧
      "a.b" ∉ (ModuleManager.activate sEx "c.d").1.activeModuleIds ∧
      (∀ x, x ≠ "a.b" → x ≠ "c.d" →
        (x ∈ (ModuleManager.activate sEx "c.d").1.activeModuleIds ↔
          x ∈ sEx.activeModuleIds)) ∧
      (ModuleManager.activate sEx "c.d").2 =
        [.hook "a.b" .onDeactivate, .hook "c.d" .onActivate,
          .emitted (.moduleActivated "c.d" .exclusive (some "c.d")
            (setAdd (sEx.activeModuleIds.filter (fun x => x != "a.b"))
              "c.d"))] :=
  ModuleManager.activate_switch_spec sEx "a.b" "c.d" iExA iExC (by decide)
    (by decide) (by decide) (by decide) (by decide) (by decide) (by decide)
    (by decide)

/-! ## AdapterRegistry (the adapter-registry source file of the
repository)

An adapter (`src/core/adapters/types.ts`) carries metadata
`{id, platform, version?}`, a capability predicate `supports`, and
optional async `initialize`/`dispose` hooks, embedded as presence flags
(their bodies are external I/O).  The registry stores adapters in a JS
`Map` keyed by `metadata.id`. -/

structure AdapterMetadata : Type where
  id : String
  platform : String
  version : Option String := none

structure Adapter : Type where
  metadata : AdapterMetadata
  supports : String → Bool
  hasInitialize : Bool := false
  hasDispose : Bool := false

structure AdapterRegistrySnapshot : Type where
  adapterIds : List String
  platforms : List String
deriving DecidableEq

structure AdapterRegistry : Type where
  adapters : List (String × Adapter)

inductive AdapterRegError : Type
  | duplicateAdapterId
deriving DecidableEq

namespace AdapterRegistry

/-- `register(adapter)`: throws `Adapter already registered` when the
adapter's id already has an entry, otherwise stores it by id. -/
def register (r : AdapterRegistry) (a : Adapter) :
    Except AdapterRegError AdapterRegistry :=
  if (mapLookup r.adapters a.metadata.id).isSome then
    Except.error .duplicateAdapterId
  else Except.ok ⟨mapSet r.adapters a.metadata.id a⟩

def unregister (r : AdapterRegistry) (adapterId : String) : AdapterRegistry :=
  ⟨mapDelete r.adapters adapterId⟩

/-- `list()`: all adapters, in registration order. -/
def list (r : AdapterRegistry) : List Adapter := r.adapters.map Prod.snd

/-- `findByCapability(capability)`: the first adapter whose `supports`
returns true, if any. -/
def findByCapability (r : AdapterRegistry) (capability : String) :
    Option Adapter :=
  r.list.find? fun a => a.supports capability

/-- `findAllByCapability(capability)`: every supporting adapter. -/
def findAllByCapability (r : AdapterRegistry) (capability : String) :
    List Adapter :=
  r.list.filter fun a => a.supports capability

/-- `getSnapshot()`: the adapter ids and their platform tags, in
registration order. -/
def getSnapshot (r : AdapterRegistry) : AdapterRegistrySnapshot :=
  ⟨r.list.map (·.metadata.id), r.list.map (·.metadata.platform)⟩

end AdapterRegistry

/-! ## CoreKernel (`src/core/kernel.ts`)

The kernel owns the module registry, the adapter registry and, once
boot has constructed it, a module manager. -/

structure KernelState : Type where
  moduleRegistry : ModuleRegistry
  adapterRegistry : AdapterRegistry
  moduleManager : Option ManagerState

structure KernelModuleSnapshot : Type where
  activeExclusiveModuleId : Option String
  activeModuleIds : List String
  manifests : List ModuleManifest
deriving DecidableEq

structure KernelSnapshot : Type where
  adapters : AdapterRegistrySnapshot
  modules : KernelModuleSnapshot
deriving DecidableEq

namespace CoreKernel

/-- `getSnapshot()`: the adapter snapshot together with the module
manager's activation snapshot (defaults before boot) spread into the
manifest list of every registered definition, `registry.list().map(d =>
d.manifest)`. -/
def getSnapshot (k : KernelState) : KernelSnapshot :=
  let base : ModuleManager.Snapshot :=
    match k.moduleManager with
    | some m => ModuleManager.getSnapshot m
    | none => ⟨none, []⟩
  ⟨k.adapterRegistry.getSnapshot,
    ⟨base.activeExclusiveModuleId, base.activeModuleIds,
      k.moduleRegistry.list.map (·.manifest)⟩⟩

/-- `deactivateAllModules()`: thin forward to the manager (no-op before
boot). -/
def deactivateAllModules (k : KernelState) : KernelState × List TraceEvent :=
  match k.moduleManager with
  | none => (k, [])
  | some m =>
    (⟨k.moduleRegistry, k.adapterRegistry,
        some (ModuleManager.deactivateAll m).1⟩,
      (ModuleManager.deactivateAll m).2)

end CoreKernel

/-- Lexicographic order on strings by character code, the presentation
order "sorted by id / by name" refers to. -/
def charListLe : List Char → List Char → Bool
  | [], _ => true
  | _ :: _, [] => false
  | a :: as, b :: bs =>
    if a < b then true else if a = b then charListLe as bs else false

def strLe (a b : String) : Bool := charListLe a.data b.data

def mSortB : ModuleManifest := { id := "b.x", name := "m", version := "1" }

def mSortA : ModuleManifest := { id := "a.y", name := "z", version := "1" }

def mSortC : ModuleManifest := { id := "c.z", name := "a", version := "1" }

def dSortB : ModuleDefinition := ⟨mSortB, ⟨mSortB, {}⟩⟩

def dSortA : ModuleDefinition := ⟨mSortA, ⟨mSortA, {}⟩⟩

def dSortC : ModuleDefinition := ⟨mSortC, ⟨mSortC, {}⟩⟩

def rgSortB : ModuleRegistry := ⟨[("b.x", dSortB)], none⟩

def rgSortBA : ModuleRegistry :=
  ⟨[("b.x", dSortB), ("a.y", dSortA)], none⟩

def rgSortBAC : ModuleRegistry :=
  ⟨[("b.x", dSortB), ("a.y", dSortA), ("c.z", dSortC)], none⟩

def kSort : KernelState := ⟨rgSortBAC, ⟨[]⟩, some initialManagerState⟩

/-- Claim C4 counterexample: registering `"b.x"` (name `"m"`), then
`"a.y"` (name `"z"`), then `"c.z"` (name `"a"`) succeeds, and the booted
kernel's snapshot lists the manifests in registration order
`["b.x", "a.y", "c.z"]` — not sorted by id (ascending fails at
`b.x > a.y`, descending at `a.y < c.z`) nor by name
(`["m", "z", "a"]`: ascending fails at `z > a`, descending at
`m < z`). -/
theorem CoreKernel.getSnapshot_not_sorted :
    ModuleRegistry.register ⟨[], none⟩ dSortB = Except.ok rgSortB ∧
    ModuleRegistry.register rgSortB dSortA = Except.ok rgSortBA ∧
    ModuleRegistry.register rgSortBA dSortC = Except.ok rgSortBAC ∧
    (CoreKernel.getSnapshot kSort).modules.manifests.map (·.id) =
      ["b.x", "a.y", "c.z"] ∧
    strLe "b.x" "a.y" = false ∧
    strLe "c.z" "a.y" = false ∧
    (CoreKernel.getSnapshot kSort).modules.manifests.map (·.name) =
      ["m", "z", "a"] ∧
    strLe "z" "a" = false ∧
    strLe "z" "m" = false :=
  ⟨rfl, rfl, rfl, rfl, by decide, by decide, rfl, by decide, by decide⟩

/-- A successful `register` appends the definition under its id: the
stored order is registration order. -/
theorem ModuleRegistry.register_ok_shape {r : ModuleRegistry}
    {d : ModuleDefinition} {r' : ModuleRegistry}
    (h : r.register d = Except.ok r') :
    r'.definitions = mapSet r.definitions d.manifest.id d ∧
      mapLookup r.definitions d.manifest.id = none := by
  unfold ModuleRegistry.register at h
  by_cases hval : isValidModuleId d.manifest.id = true
  · cases hdup : mapLookup r.definitions d.manifest.id with
    | some v => simp [hval, hdup] at h
    | none =>
      refine ⟨?_, rfl⟩
      cases hui : d.manifest.ui with
      | none =>
        simp [hval, hdup, hui] at h
        rw [← h]
      | some u =>
        cases hres : r.viewResolver with
        | none =>
          simp [hval, hdup, hui, hres] at h
          rw [← h]
        | some res =>
          cases hvb : (!u.viewId.isEmpty && !(res u.viewId)) with
          | true => simp [hval, hdup, hui, hres, hvb] at h
          | false =>
            simp [hval, hdup, hui, hres, hvb] at h
            rw [← h]
  · have hv' : isValidModuleId d.manifest.id = false := by
      cases hx : isValidModuleId d.manifest.id
      · rfl
      · exact absurd hx hval
    simp [hv'] at h

/-- Claim C4 (amended): `getSnapshot()` combines the adapter snapshot
and the manager's activation state (defaults before boot) with the
manifests of every registered definition in registration order
(successful registration appends; the snapshot does not sort). -/
theorem CoreKernel.getSnapshot_spec (k : KernelState) :
    (CoreKernel.getSnapshot k).adapters = k.adapterRegistry.getSnapshot ∧
    (∀ m : ManagerState, k.moduleManager = some m →
      (CoreKernel.getSnapshot k).modules.activeExclusiveModuleId =
          m.activeExclusiveModuleId ∧
        (CoreKernel.getSnapshot k).modules.activeModuleIds =
          m.activeModuleIds) ∧
    (k.moduleManager = none →
      (CoreKernel.getSnapshot k).modules.activeExclusiveModuleId = none ∧
        (CoreKernel.getSnapshot k).modules.activeModuleIds = []) ∧
    (CoreKernel.getSnapshot k).modules.manifests =
      k.moduleRegistry.list.map (·.manifest) ∧
    (∀ man, man ∈ (CoreKernel.getSnapshot k).modules.manifests ↔
      ∃ d ∈ k.moduleRegistry.list, d.manifest = man) ∧
    (∀ (r r' : ModuleRegistry) (d : ModuleDefinition),
      r.register d = Except.ok r' → r'.list = r.list ++ [d]) := by
  refine ⟨rfl, ?_, ?_, ?_, ?_, ?_⟩
  · intro m hm
    simp [CoreKernel.getSnapshot, hm, ModuleManager.getSnapshot]
  · intro hm
    simp [CoreKernel.getSnapshot, hm]
  · cases k.moduleManager <;> rfl
  · intro man
    have hman : (CoreKernel.getSnapshot k).modules.manifests =
        k.moduleRegistry.list.map (·.manifest) := by
      cases k.moduleManager <;> rfl
    rw [hman]
    simp [List.mem_map]
  · intro r r' d hreg
    obtain ⟨hdefs, hnone⟩ := ModuleRegistry.register_ok_shape hreg
    unfold ModuleRegistry.list
    rw [hdefs, mapSet_eq_append_of_lookup_none _ hnone]
    simp

namespace ModuleManager

theorem activate_active_nonexclusive {s : ManagerState} {id : String}
    {next : ModuleInstance}
    (hl : mapLookup s.instances id = some next)
    (hx : getActivationMode next ≠ ModuleActivationMode.exclusive) :
    (activate s id).1.activeModuleIds = setAdd s.activeModuleIds id ∧
    (activate s id).1.activeExclusiveModuleId =
      s.activeExclusiveModuleId := by
  by_cases hm : id ∈ s.activeModuleIds
  · rw [activate_eq_of_mem hl hm]
    refine ⟨?_, rfl⟩
    unfold setAdd
    rw [if_pos hm]
  · rw [activate_nonexclusive hl hm hx]
    exact ⟨rfl, rfl⟩

theorem initStep_active_mono (acc : ManagerState × List TraceEvent)
    (d : ModuleDefinition) {x : String} (hx : x ∈ acc.1.activeModuleIds) :
    x ∈ (initStep acc d).1.activeModuleIds := by
  unfold initStep
  by_cases he : isModuleEnabled d
  · simp only [if_pos he]
    by_cases hb : getActivationMode d.factoryOut =
        ModuleActivationMode.background
    · simp only [if_pos hb]
      have hl : mapLookup ({ acc.1 with
            instances := mapSet acc.1.instances d.manifest.id d.factoryOut } :
            ManagerState).instances d.manifest.id = some d.factoryOut :=
        mapLookup_mapSet_self _ _ _
      have hnx : getActivationMode d.factoryOut ≠
          ModuleActivationMode.exclusive := by
        rw [hb]
        intro hc
        exact ModuleActivationMode.noConfusion hc
      obtain ⟨ha, -⟩ := activate_active_nonexclusive hl hnx
      rw [ha]
      exact mem_setAdd_of_mem _ hx
    · simp only [if_neg hb]
      exact hx
  · simp only [if_neg he]
    exact hx

theorem foldl_initStep_active_mono (defs : List ModuleDefinition) :
    ∀ (acc : ManagerState × List TraceEvent) (x : String),
      x ∈ acc.1.activeModuleIds →
      x ∈ (defs.foldl initStep acc).1.activeModuleIds := by
  induction defs with
  | nil => exact fun acc x hx => hx
  | cons d rest ih =>
    intro acc x hx
    exact ih _ x (initStep_active_mono acc d hx)

theorem initStep_background_mem (acc : ManagerState × List TraceEvent)
    (d : ModuleDefinition) (he : isModuleEnabled d = true)
    (hb : getActivationMode d.factoryOut = ModuleActivationMode.background) :
    d.manifest.id ∈ (initStep acc d).1.activeModuleIds := by
  unfold initStep
  simp only [if_pos he, if_pos hb]
  have hl : mapLookup ({ acc.1 with
        instances := mapSet acc.1.instances d.manifest.id d.factoryOut } :
        ManagerState).instances d.manifest.id = some d.factoryOut :=
    mapLookup_mapSet_self _ _ _
  have hnx : getActivationMode d.factoryOut ≠
      ModuleActivationMode.exclusive := by
    rw [hb]
    intro hc
    exact ModuleActivationMode.noConfusion hc
  obtain ⟨ha, -⟩ := activate_active_nonexclusive hl hnx
  rw [ha]
  exact mem_setAdd_self _ _

theorem foldl_initStep_background (defs : List ModuleDefinition) :
    ∀ acc : ManagerState × List TraceEvent, ∀ d ∈ defs,
      isModuleEnabled d = true →
      getActivationMode d.factoryOut = ModuleActivationMode.background →
      d.manifest.id ∈ (defs.foldl initStep acc).1.activeModuleIds := by
  induction defs with
  | nil =>
    intro acc d hd
    cases hd
  | cons d0 rest ih =>
    intro acc d hd he hb
    rcases List.mem_cons.mp hd with rfl | hd'
    · exact foldl_initStep_active_mono rest _ _
        (initStep_background_mem acc d he hb)
    · exact ih _ d hd' he hb

end ModuleManager

theorem mapLookup_eq_none_iff {V : Type} (m : List (String × V))
    (k : String) : mapLookup m k = none ↔ k ∉ m.map Prod.fst := by
  induction m with
  | nil => simp [mapLookup]
  | cons kv rest ih =>
    obtain ⟨k0, w⟩ := kv
    by_cases hk : k0 = k
    · subst hk
      simp [mapLookup]
    · simp only [mapLookup, if_neg hk, List.map_cons, List.mem_cons, ih]
      constructor
      · intro h
        rintro (rfl | hm)
        · exact hk rfl
        · exact h hm
      · intro h hm
        exact h (Or.inr hm)

namespace ModuleManager

theorem initStep_not_enabled (acc : ManagerState × List TraceEvent)
    (d : ModuleDefinition) (he : isModuleEnabled d = false) :
    initStep acc d = acc := by
  unfold initStep
  rw [he]
  simp

theorem initStep_instances_shape (acc : ManagerState × List TraceEvent)
    (d : ModuleDefinition) (he : isModuleEnabled d = true) :
    (initStep acc d).1.instances =
      mapSet acc.1.instances d.manifest.id d.factoryOut := by
  unfold initStep
  simp only [if_pos he]
  by_cases hb : getActivationMode d.factoryOut =
      ModuleActivationMode.background
  · simp only [if_pos hb]
    rw [activate_instances]
  · simp only [if_neg hb]

theorem foldl_initStep_keys (defs : List ModuleDefinition) :
    ∀ acc : ManagerState × List TraceEvent,
      (∀ d ∈ defs, mapLookup acc.1.instances d.manifest.id = none) →
      (defs.map (fun d => d.manifest.id)).Nodup →
      (defs.foldl initStep acc).1.instances.map Prod.fst =
        acc.1.instances.map Prod.fst ++
          (defs.filter (fun d => isModuleEnabled d)).map
            (fun d => d.manifest.id) := by
  induction defs with
  | nil =>
    intro acc _ _
    simp
  | cons d0 rest ih =>
    intro acc hfresh hnd
    simp only [List.map_cons, List.nodup_cons] at hnd
    obtain ⟨hd0notin, hndrest⟩ := hnd
    cases he : isModuleEnabled d0 with
    | false =>
      have hstep : initStep acc d0 = acc := initStep_not_enabled acc d0 he
      rw [List.foldl_cons, hstep,
        ih acc (fun d hd => hfresh d (List.mem_cons_of_mem _ hd)) hndrest]
      simp [List.filter_cons, he]
    | true =>
      have hkeys : (initStep acc d0).1.instances =
          acc.1.instances ++ [(d0.manifest.id, d0.factoryOut)] := by
        rw [initStep_instances_shape acc d0 he]
        exact mapSet_eq_append_of_lookup_none _
          (hfresh d0 (List.mem_cons_self _ _))
      have hfresh' : ∀ d ∈ rest,
          mapLookup (initStep acc d0).1.instances d.manifest.id = none := by
        intro d hd
        rw [hkeys, mapLookup_eq_none_iff]
        simp only [List.map_append, List.mem_append]
        rintro (hmem | hmem)
        · exact (mapLookup_eq_none_iff _ _).mp
            (hfresh d (List.mem_cons_of_mem _ hd)) hmem
        · simp only [List.map_cons, List.map_nil, List.mem_singleton] at hmem
          apply hd0notin
          rw [← hmem]
          exact List.mem_map_of_mem _ hd
      rw [List.foldl_cons, ih _ hfresh' hndrest, hkeys]
      simp [List.filter_cons, he, List.map_append]

end ModuleManager

/-- Claim C7: over registered (uniquely-identified) definitions,
`initAll` leaves every enabled definition whose instance activation mode
is `background` already in `activeModuleIds` with no external `activate`
call; the instantiated module ids are exactly the enabled definitions'
ids in order; and the `modules:ready` event carrying that id list is the
final trace entry, emitted after all definitions are processed. -/
theorem ModuleManager.initAll_spec (defs : List ModuleDefinition)
    (hnd : (defs.map (fun d => d.manifest.id)).Nodup) :
    (∀ d ∈ defs, ModuleManager.isModuleEnabled d = true →
      ModuleManager.getActivationMode d.factoryOut =
        ModuleActivationMode.background →
      d.manifest.id ∈
        (ModuleManager.initAll initialManagerState defs).1.activeModuleIds) ∧
    (ModuleManager.initAll initialManagerState defs).1.instances.map
        Prod.fst =
      (defs.filter (fun d => ModuleManager.isModuleEnabled d)).map
        (fun d => d.manifest.id) ∧
    (ModuleManager.initAll initialManagerState defs).2 =
      (defs.foldl ModuleManager.initStep (initialManagerState, [])).2 ++
        [.emitted (.modulesReady
          ((defs.filter (fun d => ModuleManager.isModuleEnabled d)).map
            (fun d => d.manifest.id)))] := by
  have hkeys := ModuleManager.foldl_initStep_keys defs
    (initialManagerState, []) (fun d _ => rfl) hnd
  refine ⟨?_, ?_, ?_⟩
  · intro d hd he hb
    exact ModuleManager.foldl_initStep_background defs
      (initialManagerState, []) d hd he hb
  · simpa using hkeys
  · show (defs.foldl ModuleManager.initStep (initialManagerState, [])).2 ++
        [.emitted (.modulesReady
          ((defs.foldl ModuleManager.initStep
            (initialManagerState, [])).1.instances.map Prod.fst))] = _
    rw [hkeys]
    simp [initialManagerState]

def mBg : ModuleManifest :=
  { id := "bg.mod", name := "G", version := "1",
    activationMode := some .background }

def dBg : ModuleDefinition := ⟨mBg, ⟨mBg, {}⟩⟩

theorem ModuleManager.initAll_spec_witness :
    (∀ d ∈ [dBg], ModuleManager.isModuleEnabled d = true →
      ModuleManager.getActivationMode d.factoryOut =
        ModuleActivationMode.background →
      d.manifest.id ∈
        (ModuleManager.initAll initialManagerState [dBg]).1.activeModuleIds) ∧
    (ModuleManager.initAll initialManagerState [dBg]).1.instances.map
        Prod.fst =
      ([dBg].filter (fun d => ModuleManager.isModuleEnabled d)).map
        (fun d => d.manifest.id) ∧
    (ModuleManager.initAll initialManagerState [dBg]).2 =
      ([dBg].foldl ModuleManager.initStep (initialManagerState, [])).2 ++
        [.emitted (.modulesReady
          (([dBg].filter (fun d => ModuleManager.isModuleEnabled d)).map
            (fun d => d.manifest.id)))] :=
  ModuleManager.initAll_spec [dBg] (by decide)

namespace ModuleManager

theorem foldl_deactStep_active (l : List String) :
    ∀ (acc : ManagerState × List TraceEvent) (x : String),
      x ∈ (l.foldl deactStep acc).1.activeModuleIds →
      x ∈ acc.1.activeModuleIds ∧ x ∉ l := by
  induction l with
  | nil =>
    intro acc x hx
    exact ⟨hx, by simp⟩
  | cons a rest ih =>
    intro acc x hx
    obtain ⟨hx', hnotr⟩ := ih (deactStep acc a) x hx
    have hmf := List.mem_filter.mp hx'
    refine ⟨hmf.1, ?_⟩
    intro hmem
    rcases List.mem_cons.mp hmem with rfl | hr
    · have hba := hmf.2
      simp at hba
    · exact hnotr hr

theorem foldl_deactStep_excl_none (l : List String) :
    ∀ acc : ManagerState × List TraceEvent,
      acc.1.activeExclusiveModuleId = none →
      (l.foldl deactStep acc).1.activeExclusiveModuleId = none := by
  induction l with
  | nil => exact fun acc h => h
  | cons a rest ih =>
    intro acc h
    apply ih
    show (deactivate acc.1 a).1.activeExclusiveModuleId = none
    rw [deactivate_state]
    simp [h]

theorem foldl_deactStep_excl_mem (l : List String) :
    ∀ (acc : ManagerState × List TraceEvent) (x : String),
      acc.1.activeExclusiveModuleId = some x → x ∈ l →
      (l.foldl deactStep acc).1.activeExclusiveModuleId = none := by
  induction l with
  | nil =>
    intro acc x _ hm
    cases hm
  | cons a rest ih =>
    intro acc x he hm
    by_cases hax : x = a
    · subst hax
      apply foldl_deactStep_excl_none rest
      show (deactivate acc.1 x).1.activeExclusiveModuleId = none
      rw [deactivate_state]
      simp [he]
    · rcases List.mem_cons.mp hm with rfl | hr
      · exact absurd rfl hax
      · refine ih _ x ?_ hr
        show (deactivate acc.1 a).1.activeExclusiveModuleId = some x
        rw [deactivate_state]
        simp only [he]
        rw [if_neg]
        intro hc
        injection hc with hc
        exact hax hc

theorem foldl_deactStep_trace_mono (l : List String) :
    ∀ (acc : ManagerState × List TraceEvent) (e : TraceEvent),
      e ∈ acc.2 → e ∈ (l.foldl deactStep acc).2 := by
  induction l with
  | nil => exact fun acc e he => he
  | cons a rest ih =>
    intro acc e he
    exact ih _ e (List.mem_append_left _ he)

theorem foldl_deactStep_hooks (l : List String) :
    ∀ acc : ManagerState × List TraceEvent, l.Nodup →
      (∀ id ∈ l, id ∈ acc.1.activeModuleIds) →
      ∀ id ∈ l, ∀ inst : ModuleInstance,
        mapLookup acc.1.instances id = some inst →
        inst.lifecycle.onDeactivate = true →
        TraceEvent.hook id .onDeactivate ∈ (l.foldl deactStep acc).2 := by
  induction l with
  | nil =>
    intro acc _ _ id hid
    cases hid
  | cons a rest ih =>
    intro acc hnd hact id hid inst hlk hflag
    simp only [List.nodup_cons] at hnd
    obtain ⟨hanot, hndr⟩ := hnd
    rcases List.mem_cons.mp hid with rfl | hidr
    · apply foldl_deactStep_trace_mono rest
      show TraceEvent.hook id .onDeactivate ∈ acc.2 ++ (deactivate acc.1 id).2
      apply List.mem_append_right
      have hmem := hact id (List.mem_cons_self _ _)
      simp [deactivate, hmem, hlk, hookTrace, hflag]
    · refine ih (deactStep acc a) hndr ?_ id hidr inst hlk hflag
      intro x hx
      have hxa : x ≠ a := fun hctr => hanot (hctr ▸ hx)
      show x ∈ (deactivate acc.1 a).1.activeModuleIds
      rw [deactivate_state]
      exact List.mem_filter.mpr
        ⟨hact x (List.mem_cons_of_mem _ hx), by simp [bne_iff_ne, hxa]⟩

/-- For any well-formed state, `deactivateAll` empties the active set
and clears the exclusive slot. -/
theorem deactivateAll_clears {s : ManagerState} (h : WF s) :
    (deactivateAll s).1.activeModuleIds = [] ∧
    (deactivateAll s).1.activeExclusiveModuleId = none := by
  obtain ⟨hnd, hinst, hexcl⟩ := h
  constructor
  · have hnone : ∀ x, x ∉
        (s.activeModuleIds.foldl deactStep (s, [])).1.activeModuleIds := by
      intro x hx
      obtain ⟨hx1, hx2⟩ := foldl_deactStep_active s.activeModuleIds (s, []) x hx
      exact hx2 hx1
    exact List.eq_nil_iff_forall_not_mem.mpr hnone
  · cases hce : s.activeExclusiveModuleId with
    | none => exact foldl_deactStep_excl_none _ _ hce
    | some x => exact foldl_deactStep_excl_mem _ _ x hce (hexcl x hce)

end ModuleManager

/-- Claim C1 (spec-modelled: `deactivateAll` and `getSnapshot` are
absent from the staged manager sources and follow the spec's words; the
kernel forwarder is `kernel.ts`): from every reachable manager state,
after `deactivateAll()` the snapshot equals
`{activeExclusiveModuleId := none, activeModuleIds := []}`, each active
module's declared `onDeactivate` hook is awaited during the call, and
the same activation snapshot results when the call is made through
`CoreKernel.deactivateAllModules`. -/
theorem ModuleManager.deactivateAll_spec (ops : List ManagerOp) :
    ModuleManager.getSnapshot
        (ModuleManager.deactivateAll (runOps ops)).1 = ⟨none, []⟩ ∧
    (∀ id ∈ (runOps ops).activeModuleIds, ∀ inst : ModuleInstance,
      mapLookup (runOps ops).instances id = some inst →
      inst.lifecycle.onDeactivate = true →
      TraceEvent.hook id .onDeactivate ∈
        (ModuleManager.deactivateAll (runOps ops)).2) ∧
    (∀ (reg : ModuleRegistry) (ad : AdapterRegistry),
      (CoreKernel.getSnapshot
        (CoreKernel.deactivateAllModules
          ⟨reg, ad, some (runOps ops)⟩).1).modules.activeExclusiveModuleId =
        none ∧
      (CoreKernel.getSnapshot
        (CoreKernel.deactivateAllModules
          ⟨reg, ad, some (runOps ops)⟩).1).modules.activeModuleIds = []) := by
  obtain ⟨ha, he⟩ := ModuleManager.deactivateAll_clears (WF_runOps ops)
  obtain ⟨hnd, hinst, hexcl⟩ := WF_runOps ops
  refine ⟨?_, ?_, ?_⟩
  · show ModuleManager.Snapshot.mk _ _ = _
    rw [ha, he]
  · intro id hid inst hlk hflag
    apply List.mem_append_left
    exact ModuleManager.foldl_deactStep_hooks (runOps ops).activeModuleIds
      (runOps ops, []) hnd (fun x hx => hx) id hid inst hlk hflag
  · intro reg ad
    constructor
    · simp [CoreKernel.deactivateAllModules, CoreKernel.getSnapshot,
        ModuleManager.getSnapshot, he]
    · simp [CoreKernel.deactivateAllModules, CoreKernel.getSnapshot,
        ModuleManager.getSnapshot, ha]
